import Mathlib

/-!
Verification development for the FFT project (iterative, recursive and
MPI-distributed Cooley-Tukey engines, files src/libraries/Iterative.hpp,
Recursive.hpp, Parallel.hpp, Fourier.hpp).

The engines are embedded shallowly over lists of complex numbers.  C++
`std::complex<double>` arithmetic is modelled by exact arithmetic on `ℂ`:
`std::polar(1.0, t)` and `(cos t, sin t)` become `Complex.exp (t * I)`, and
the incremental twiddle accumulation `w *= wlen` is threaded through the
folds exactly as in the source.  `std::vector` reads `v[i]` become
`List.getD i 0` and writes become `List.set`; `resize` keeps the prefix and
pads with zeros.  Timing is modelled by a parameter `tv`, the value the
`Timer` would return; an engine that executes `this->duration = t.stop_and_return()`
stores `tv` in its `duration` field.  A thrown `std::invalid_argument`
becomes `Except.error` with the thrown message, and the unbounded recursion
of `Recursive::recursive` is modelled with an explicit fuel parameter:
exhausted fuel (`none`) corresponds to a non-terminating run.
-/

noncomputable section

/-- Semantics of `std::vector::resize(n)`: keep the first `n` elements,
pad with value-initialized (zero) elements if the vector grows. -/
def resizeList (l : List ℂ) (n : ℕ) : List ℂ :=
  l.take n ++ List.replicate (n - l.length) 0

/-- Bit-reversal index map of the iterative engine (Iterative.hpp lines 55-61
and 115-121): `j = 0; for bit < k: if (i & (1 << bit)) j |= 1 << (k-1-bit)`. -/
def bitrevIter (k i : ℕ) : ℕ :=
  (List.range k).foldl
    (fun j bit => if i &&& (1 <<< bit) ≠ 0 then j ||| (1 <<< (k - 1 - bit)) else j) 0

/-- Bit-reversal index map of the distributed engine, computed on rank 0
(Parallel.hpp lines 113-120): `j = 0; temp_i = i; for bit < k:
j = (j << 1) | (temp_i & 1); temp_i >>= 1`.  The fold state is `(j, temp_i)`. -/
def bitrevPar (k i : ℕ) : ℕ :=
  ((List.range k).foldl
    (fun (s : ℕ × ℕ) _ => ((s.1 <<< 1) ||| (s.2 &&& 1), s.2 >>> 1)) ((0 : ℕ), i)).1

/-- Permutation loop `for i < x.length: out[f i] = x[i]`, run on the buffer
`init` (the engine's output vector after allocation/resize). -/
def permFold (f : ℕ → ℕ) (x : List ℂ) (init : List ℂ) : List ℂ :=
  (List.range x.length).foldl (fun out i => out.set (f i) (x.getD i 0)) init

/-- Stage angle `(inverse ? 2.0 : -2.0) * acos(-1) / len` (Iterative.hpp lines
67 and 127, Parallel.hpp lines 39 and 178; Recursive.hpp line 47 writes the
same value as `(inverse ? 1 : -1) * 2.0 * M_PI / N`). -/
def angleOf (inverse : Bool) (len : ℕ) : ℝ :=
  (if inverse then 2 else -2) * Real.pi / len

/-- Stage twiddle base `wlen = (cos angle, sin angle) = exp(angle * I)`,
also the value of `std::polar(1.0, angle)` in Recursive.hpp line 48. -/
def wlenOf (inverse : Bool) (len : ℕ) : ℂ :=
  Complex.exp ((angleOf inverse len : ℝ) * Complex.I)

/-- Unit root `exp(2 * pi * I * d / n)` for an integer numerator `d`; the
bookkeeping form used to reason about products of stage twiddles. -/
def cexpUnit (n : ℕ) (d : ℤ) : ℂ :=
  Complex.exp (2 * (Real.pi : ℂ) * Complex.I * d / n)

/-- The discrete Fourier transform (the functional specification all three
engines are compared against): entry `k` is the sum of `x[j] * wlen^(j*k)`
over `j`, with `wlen = exp(-2*pi*I/N)` forward and `exp(2*pi*I/N)` inverse. -/
def dft (inverse : Bool) (x : List ℂ) : List ℂ :=
  (List.range x.length).map fun k =>
    ∑ j ∈ Finset.range x.length, x.getD j 0 * wlenOf inverse x.length ^ (j * k)

/-- First `M` iterations of the inner pair loop of a butterfly block
(Iterative.hpp lines 70-77); the loop itself runs `M = len/2` iterations.
The fold state is `(buffer, w)`. -/
def blockFoldAux (wlen : ℂ) (len i : ℕ) (y : List ℂ) (M : ℕ) : List ℂ × ℂ :=
  (List.range M).foldl
    (fun (s : List ℂ × ℂ) j =>
      let u := s.1.getD (i + j) 0
      let v := s.1.getD (i + j + len / 2) 0 * s.2
      ((s.1.set (i + j) (u + v)).set (i + j + len / 2) (u - v), s.2 * wlen))
    (y, 1)

/-- One butterfly block of the iterative stage loop (Iterative.hpp lines
70-77): starting at offset `i`, for `j < len/2` combine the pair
`(y[i+j], y[i+j+len/2])` into `(u+v, u-v)` with `v = y[i+j+len/2] * w`, the
running twiddle `w` multiplied by `wlen` after every pair. -/
def butterflyBlock (wlen : ℂ) (len i : ℕ) (y : List ℂ) : List ℂ :=
  (blockFoldAux wlen len i y (len / 2)).1

/-- One full stage of width `len` on a buffer of logical size `n`
(Iterative.hpp lines 69-78, Parallel.hpp lines 46-59): the outer loop
`for (i = 0; i < n; i += len)` visits the `n / len` block offsets `b * len`
(the engines only reach this loop with `len` dividing `n`). -/
def butterflyPass (wlen : ℂ) (len n : ℕ) (y : List ℂ) : List ℂ :=
  (List.range (n / len)).foldl (fun z b => butterflyBlock wlen len (b * len) z) y

/-- First `M` iterations of the direct-angle inner pair loop of
`Parallel::butterfly_stage` (Parallel.hpp lines 63-71); the loop itself runs
`M = len/2` iterations. -/
def directBlockAux (inverse : Bool) (len i : ℕ) (y : List ℂ) (M : ℕ) : List ℂ :=
  (List.range M).foldl
    (fun z2 (j : ℕ) =>
      let w := Complex.exp ((angleOf inverse len * (j : ℝ)) * Complex.I)
      let u := z2.getD (i + j) 0
      let v := z2.getD (i + j + len / 2) 0 * w
      (z2.set (i + j) (u + v)).set (i + j + len / 2) (u - v))
    y

/-- The collapse(2) branch of `Parallel::butterfly_stage` (Parallel.hpp lines
61-72): the same index pattern as the recurrence branch, but each pair
computes its own twiddle directly as `polar(1, angle * j) = exp(angle * j * I)`. -/
def butterflyPassDirect (inverse : Bool) (len n : ℕ) (y : List ℂ) : List ℂ :=
  (List.range (n / len)).foldl
    (fun z b => directBlockAux inverse len (b * len) z (len / 2))
    y

/-- Complete `Parallel::butterfly_stage` (Parallel.hpp lines 37-74) with its
heuristic switch: the incremental-recurrence branch when `local_n / len >= 32`,
the direct-angle branch otherwise. -/
def butterfly_stage (inverse : Bool) (local_n len : ℕ) (data : List ℂ) : List ℂ :=
  if 32 ≤ local_n / len then butterflyPass (wlenOf inverse len) len local_n data
  else butterflyPassDirect inverse len local_n data

/-- The stage loop driver `for (len = 2; len <= n; len <<= 1) body` shared by
Iterative.hpp (lines 66, 126) and Parallel.hpp (line 147), abstracted over the
stage body `g`.  (The guard `1 ≤ len` only serves termination; every use
starts at `len = 2` and doubles, exactly as the source.) -/
def lenLoop {α : Type} (g : ℕ → α → α) (n : ℕ) (len : ℕ) (a : α) : α :=
  if h : 1 ≤ len ∧ len ≤ n then lenLoop g n (len * 2) (g len a) else a
termination_by n + 1 - len
decreasing_by omega

/-- One iterative-engine stage of width `len`, acting on the whole buffer. -/
def iterStage (inverse : Bool) (len : ℕ) (y : List ℂ) : List ℂ :=
  butterflyPass (wlenOf inverse len) len y.length y

/-- Mathematical form of a width-`2|A|` butterfly combining two halves `A`,
`B`: entries `A[j] + w^j B[j]` followed by entries `A[j] - w^j B[j]`. -/
def combineHalves (w : ℂ) (A B : List ℂ) : List ℂ :=
  ((List.range A.length).map fun j => A.getD j 0 + w ^ j * B.getD j 0) ++
  ((List.range A.length).map fun j => A.getD j 0 - w ^ j * B.getD j 0)

/-- Even/odd split of `Recursive::recursive` (Recursive.hpp lines 55-63): the
loop pushes `x[i]` onto `evenX` for even `i` and onto `oddX` for odd `i`. -/
def splitEvenOdd : List ℂ → List ℂ × List ℂ
  | [] => ([], [])
  | [a] => ([a], [])
  | a :: b :: t =>
    let s := splitEvenOdd t
    (a :: s.1, b :: s.2)

/-- First `M` iterations of the combine loop of `Recursive::recursive`
(Recursive.hpp lines 68-72); the loop itself runs `M = N/2` iterations.
The fold state is `(Y, w_k)`. -/
def recCombineAux (w : ℂ) (evenY oddY : List ℂ) (N : ℕ) (M : ℕ) : List ℂ × ℂ :=
  (List.range M).foldl
    (fun (s : List ℂ × ℂ) i =>
      ((s.1.set i (evenY.getD i 0 + s.2 * oddY.getD i 0)).set (i + N / 2)
          (evenY.getD i 0 - s.2 * oddY.getD i 0), s.2 * w))
    (List.replicate N 0, 1)

/-- Combine loop of `Recursive::recursive` (Recursive.hpp lines 68-72) on the
default-initialized result vector `Y(N)`: for `i < N/2` set
`Y[i] = evenY[i] + w_k * oddY[i]`, `Y[i+N/2] = evenY[i] - w_k * oddY[i]`,
`w_k *= w`. -/
def recCombine (w : ℂ) (evenY oddY : List ℂ) (N : ℕ) : List ℂ :=
  (recCombineAux w evenY oddY N (N / 2)).1

/-- Body of `Recursive::recursive` (Recursive.hpp lines 39-75).  The C++
recursion is not structurally decreasing (an empty vector recurses on two
empty vectors forever), so it is embedded with a fuel parameter: `none`
models a run that does not terminate within `fuel` nested calls; on inputs
where the C++ recursion terminates the result is independent of any
sufficiently large fuel. -/
def recursiveFuel (inverse : Bool) : ℕ → List ℂ → Option (List ℂ)
  | 0, _ => none
  | fuel + 1, x =>
    if x.length = 1 then some x
    else
      let N := x.length
      let w := wlenOf inverse N
      let s := splitEvenOdd x
      match recursiveFuel inverse fuel s.1, recursiveFuel inverse fuel s.2 with
      | some evenY, some oddY => some (recCombine w evenY oddY N)
      | _, _ => none

/-- Contiguous-chunk scatter of `MPI_Scatter` (Parallel.hpp lines 139-143):
`P` chunks of `local_n = L` elements each, in rank order. -/
def chunked (L : ℕ) : ℕ → List ℂ → List (List ℂ)
  | 0, _ => []
  | P + 1, y => y.take L :: chunked L P (y.drop L)

/-- Cross-process stage of the distributed engine (Parallel.hpp lines
156-203), with every rank simulated: rank `r` exchanges its whole partition
with `partner = r XOR group_size` where `group_size = (len/2) / local_n`,
then rewrites each local entry `i` as `u + v*w` (lower role: `group_size`
bit of `r` clear, `u` own, `v` received) or `u - v*w` (upper role, `u`
received, `v` own), with `w = polar(1, angle * (start_j + i))` and
`start_j = (r % group_size) * local_n`. -/
def parCrossStage (inverse : Bool) (P local_n len : ℕ) (chunks : List (List ℂ)) :
    List (List ℂ) :=
  (List.range P).map fun rank =>
    let group_size := (len / 2) / local_n
    let own := chunks.getD rank []
    let buf := chunks.getD (rank ^^^ group_size) []
    let start_j := (rank % group_size) * local_n
    (List.range local_n).map fun i =>
      let w := Complex.exp ((angleOf inverse len * (((start_j + i : ℕ)) : ℝ)) * Complex.I)
      if rank &&& group_size = 0 then own.getD i 0 + buf.getD i 0 * w
      else buf.getD i 0 - own.getD i 0 * w

/-- One iteration of the distributed stage loop (Parallel.hpp lines 147-204):
a stage fitting in local memory runs `butterfly_stage` on every rank's
partition; a spanning stage runs the pairwise-exchange update. -/
def parStageStep (inverse : Bool) (P local_n : ℕ) (len : ℕ)
    (chunks : List (List ℂ)) : List (List ℂ) :=
  if len ≤ local_n then chunks.map (butterfly_stage inverse local_n len)
  else parCrossStage inverse P local_n len chunks

/-- Engine state of the `Fourier<T>` base class (Fourier.hpp lines 26-49):
input vector, output vector (`none` models the null pointer before first
allocation), and the duration statistic. -/
structure FourierState where
  input : List ℂ
  output : Option (List ℂ)
  duration : ℕ

namespace Iterative

/-- Shared body of `Iterative::compute`/`reverseCompute` after the size
checks (Iterative.hpp lines 40-79 and 100-139): compute `log_n`, allocate or
resize the output, bit-reverse the input into it, then run the stage loop.
`Nat.clog 2 n` is the value of `while ((1 << log_n) < n) log_n++`. -/
def core (inverse : Bool) (x : List ℂ) (oldOut : Option (List ℂ)) : List ℂ :=
  let n := x.length
  let log_n := Nat.clog 2 n
  let buf := match oldOut with
    | none => List.replicate n 0
    | some o => resizeList o n
  lenLoop (iterStage inverse) n 2 (permFold (bitrevIter log_n) x buf)

/-- Method `Iterative::compute` (Iterative.hpp lines 33-82). -/
def compute (tv : ℕ) (s : FourierState) : Except String FourierState :=
  let n := s.input.length
  if n = 0 then .ok s
  else if n &&& (n - 1) ≠ 0 then .error "Input size must be a power of 2"
  else .ok { input := s.input, output := some (core false s.input s.output),
             duration := tv }

/-- Method `Iterative::reverseCompute` (Iterative.hpp lines 93-147): the
positive-angle stages followed by division of every sample by `n`. -/
def reverseCompute (tv : ℕ) (s : FourierState) : Except String FourierState :=
  let n := s.input.length
  if n = 0 then .ok s
  else if n &&& (n - 1) ≠ 0 then .error "Input size must be a power of 2"
  else .ok { input := s.input,
             output := some ((core true s.input s.output).map (fun z => z / (n : ℂ))),
             duration := tv }

end Iterative

namespace Recursive

/-- Method `Recursive::compute` (Recursive.hpp lines 83-91): run the
recursion on the input and store the result as a fresh output vector. -/
def compute (fuel tv : ℕ) (s : FourierState) : Option FourierState :=
  (recursiveFuel false fuel s.input).map fun r =>
    { input := s.input, output := some r, duration := tv }

/-- Method `Recursive::reverseCompute` (Recursive.hpp lines 99-112): run the
recursion with the inverse flag, then divide every entry of `Y` by
`N = Y.size()`. -/
def reverseCompute (fuel tv : ℕ) (s : FourierState) : Option FourierState :=
  (recursiveFuel true fuel s.input).map fun Y =>
    { input := s.input, output := some (Y.map (fun z => z / (Y.length : ℂ))),
      duration := tv }

end Recursive

namespace Parallel

/-- Method `Parallel::executeFFT` (Parallel.hpp lines 88-219) as a functional
simulation of all `P` ranks in lockstep, seen from rank 0 (the rank that
holds the input and the gathered output).  Rank 0 bit-reverses the input
into a zero-initialized temporary, the chunks are scattered, every stage of
the loop is executed by all ranks, the partitions are gathered back in rank
order into the resized output vector (whose entries past `P * local_n` keep
their previous contents), and an inverse run divides every output entry by
`global_n`. -/
def executeFFT (inverse : Bool) (P : ℕ) (tv : ℕ) (s : FourierState) : FourierState :=
  let global_n := s.input.length
  let log_n := Nat.clog 2 global_n
  let permuted := permFold (bitrevPar log_n) s.input (List.replicate global_n 0)
  let outBase := match s.output with
    | none => List.replicate global_n 0
    | some o => resizeList o global_n
  let local_n := global_n / P
  let final := lenLoop (parStageStep inverse P local_n) global_n 2
    (chunked local_n P permuted)
  let gathered := final.flatten ++ outBase.drop (P * local_n)
  { input := s.input,
    output := some (if inverse then gathered.map (fun z => z / (global_n : ℂ))
                    else gathered),
    duration := tv }

/-- Method `Parallel::compute` (Parallel.hpp lines 238-241). -/
def compute (P tv : ℕ) (s : FourierState) : FourierState := executeFFT false P tv s

/-- Method `Parallel::reverseCompute` (Parallel.hpp lines 246-249). -/
def reverseCompute (P tv : ℕ) (s : FourierState) : FourierState := executeFFT true P tv s

end Parallel

end

/-! List access helper lemmas: `getD`-based reasoning for the vector reads
and writes of the engines. -/

lemma getD_eq_getElem (l : List ℂ) (p : ℕ) (h : p < l.length) : l.getD p 0 = l[p] := by
  simp [List.getD_eq_getElem?_getD, List.getElem?_eq_getElem h]

lemma getD_eq_zero (l : List ℂ) (p : ℕ) (h : l.length ≤ p) : l.getD p 0 = 0 := by
  simp [List.getD_eq_getElem?_getD, List.getElem?_eq_none h]

lemma eq_of_getD (l1 l2 : List ℂ) (hlen : l1.length = l2.length)
    (h : ∀ p, p < l1.length → l1.getD p 0 = l2.getD p 0) : l1 = l2 := by
  refine List.ext_getElem hlen (fun n h1 h2 => ?_)
  have hn := h n h1
  rwa [getD_eq_getElem _ _ h1, getD_eq_getElem _ _ h2] at hn

lemma getD_set_eq (l : List ℂ) (i : ℕ) (v : ℂ) (h : i < l.length) :
    (l.set i v).getD i 0 = v := by
  simp [List.getD_eq_getElem?_getD, List.getElem?_set, h]

lemma getD_set_ne (l : List ℂ) (i j : ℕ) (v : ℂ) (h : i ≠ j) :
    (l.set i v).getD j 0 = l.getD j 0 := by
  simp [List.getD_eq_getElem?_getD, List.getElem?_set, h]

lemma getD_append_left (A B : List ℂ) (p : ℕ) (h : p < A.length) :
    (A ++ B).getD p 0 = A.getD p 0 := by
  simp [List.getD_eq_getElem?_getD, List.getElem?_append, h]

lemma getD_append_right (A B : List ℂ) (p : ℕ) (h : A.length ≤ p) :
    (A ++ B).getD p 0 = B.getD (p - A.length) 0 := by
  simp [List.getD_eq_getElem?_getD, List.getElem?_append, Nat.not_lt.mpr h]

lemma getD_replicate (n p : ℕ) : (List.replicate n (0 : ℂ)).getD p 0 = 0 := by
  simp [List.getD_eq_getElem?_getD, List.getElem?_replicate]
  split <;> rfl

lemma getD_map_range (f : ℕ → ℂ) (n p : ℕ) (h : p < n) :
    ((List.range n).map f).getD p 0 = f p := by
  simp [List.getD_eq_getElem?_getD, List.getElem?_map, List.getElem?_range h]

lemma length_resizeList (l : List ℂ) (n : ℕ) : (resizeList l n).length = n := by
  simp [resizeList]
  omega

lemma foldl_range_succ {α : Type} (f : α → ℕ → α) (a : α) (m : ℕ) :
    (List.range (m + 1)).foldl f a = f ((List.range m).foldl f a) m := by
  rw [List.range_succ, List.foldl_append]
  rfl

/-! Bit-reversal characterization: both permutation loops compute the map
that reverses the low `k` bits of the index. -/

lemma and_shiftLeft_ne_iff (i bit : ℕ) : (i &&& (1 <<< bit) ≠ 0) ↔ i.testBit bit = true := by
  rw [Nat.one_shiftLeft, Nat.and_two_pow]
  have h2 : (0 : ℕ) < 2 ^ bit := pow_pos (by norm_num) bit
  cases h : i.testBit bit
  · simp
  · simp

lemma bitrevIter_testBit (k i b : ℕ) :
    (bitrevIter k i).testBit b = true ↔ (b < k ∧ i.testBit (k - 1 - b) = true) := by
  suffices h : ∀ m, m ≤ k → ∀ c,
      (((List.range m).foldl
          (fun j bit => if i &&& (1 <<< bit) ≠ 0 then j ||| (1 <<< (k - 1 - bit)) else j)
          0).testBit c = true
        ↔ (k - m ≤ c ∧ c < k ∧ i.testBit (k - 1 - c) = true)) by
    have hk := h k le_rfl b
    unfold bitrevIter
    rw [hk]
    constructor
    · rintro ⟨_, h2, h3⟩
      exact ⟨h2, h3⟩
    · rintro ⟨h2, h3⟩
      exact ⟨by omega, h2, h3⟩
  intro m hm
  induction m with
  | zero =>
    intro c
    simp only [List.range_zero, List.foldl_nil, Nat.zero_testBit]
    constructor
    · intro hc
      exact absurd hc (by simp)
    · rintro ⟨h1, h2, _⟩
      omega
  | succ m ih =>
    have hm' : m ≤ k := by omega
    have ihm := ih hm'
    intro c
    rw [foldl_range_succ]
    by_cases hbit : i &&& (1 <<< m) ≠ 0
    · rw [if_pos hbit]
      rw [and_shiftLeft_ne_iff] at hbit
      rw [Nat.testBit_or, Bool.or_eq_true, ihm c, Nat.one_shiftLeft, Nat.testBit_two_pow]
      constructor
      · rintro (⟨h1, h2, h3⟩ | hc)
        · exact ⟨by omega, h2, h3⟩
        · have hc' : k - 1 - m = c := of_decide_eq_true hc
          have h1 : k - (m + 1) ≤ c := by omega
          have h2 : c < k := by omega
          have h3 : k - 1 - c = m := by omega
          rw [h3]
          exact ⟨h1, h2, hbit⟩
      · rintro ⟨h1, h2, h3⟩
        by_cases hcm : c = k - 1 - m
        · right
          exact decide_eq_true hcm.symm
        · left
          exact ⟨by omega, h2, h3⟩
    · rw [if_neg hbit]
      rw [and_shiftLeft_ne_iff] at hbit
      rw [ihm c]
      constructor
      · rintro ⟨h1, h2, h3⟩
        exact ⟨by omega, h2, h3⟩
      · rintro ⟨h1, h2, h3⟩
        refine ⟨?_, h2, h3⟩
        by_cases hcm : c = k - 1 - m
        · exfalso
          have h4 : k - 1 - c = m := by omega
          rw [h4] at h3
          rw [h3] at hbit
          exact hbit rfl
        · omega

lemma bitrevPar_testBit (k i b : ℕ) :
    (bitrevPar k i).testBit b = true ↔ (b < k ∧ i.testBit (k - 1 - b) = true) := by
  suffices h : ∀ m,
      (((List.range m).foldl (fun (s : ℕ × ℕ) _ => ((s.1 <<< 1) ||| (s.2 &&& 1), s.2 >>> 1))
        ((0 : ℕ), i)).2 = i >>> m) ∧
      (∀ c, (((List.range m).foldl
          (fun (s : ℕ × ℕ) _ => ((s.1 <<< 1) ||| (s.2 &&& 1), s.2 >>> 1))
          ((0 : ℕ), i)).1).testBit c = true ↔ (c < m ∧ i.testBit (m - 1 - c) = true)) by
    unfold bitrevPar
    exact (h k).2 b
  intro m
  induction m with
  | zero =>
    constructor
    · simp
    · intro c
      simp [Nat.zero_testBit]
  | succ m ih =>
    obtain ⟨iht, ihj⟩ := ih
    rw [foldl_range_succ]
    constructor
    · dsimp only
      rw [iht, ← Nat.shiftRight_add]
    · intro c
      dsimp only
      rw [iht]
      rw [Nat.testBit_or, Bool.or_eq_true, Nat.testBit_shiftLeft]
      have hand : (i >>> m) &&& 1 = i / 2 ^ m % 2 := by
        rw [Nat.and_one_is_mod, Nat.shiftRight_eq_div_pow]
      have htm : i.testBit m = decide (i / 2 ^ m % 2 = 1) := Nat.testBit_to_div_mod
      constructor
      · rintro (hsh | hlow)
        · rw [Bool.and_eq_true] at hsh
          obtain ⟨hc1, hc2⟩ := hsh
          have hc1' : 1 ≤ c := by simpa using of_decide_eq_true hc1
          have := (ihj (c - 1)).mp hc2
          refine ⟨by omega, ?_⟩
          have he : m + 1 - 1 - c = m - 1 - (c - 1) := by omega
          rw [he]
          exact this.2
        · -- low bit set: c must be 0 and bit m of i set
          rw [hand] at hlow
          have hmod : i / 2 ^ m % 2 = 0 ∨ i / 2 ^ m % 2 = 1 := Nat.mod_two_eq_zero_or_one _
          rcases hmod with hz | ho
          · rw [hz, Nat.zero_testBit] at hlow
            exact Bool.noConfusion hlow
          · rw [ho] at hlow
            have h1 : (1 : ℕ) = 2 ^ 0 := rfl
            rw [h1, Nat.testBit_two_pow] at hlow
            have hc0 : c = 0 := (of_decide_eq_true hlow).symm
            subst hc0
            refine ⟨by omega, ?_⟩
            have he : m + 1 - 1 - 0 = m := by omega
            rw [he, htm, ho]
            rfl
      · rintro ⟨hc1, hc2⟩
        by_cases hc0 : c = 0
        · right
          subst hc0
          have he : m + 1 - 1 - 0 = m := by omega
          rw [he, htm] at hc2
          have ho : i / 2 ^ m % 2 = 1 := of_decide_eq_true hc2
          rw [hand, ho]
          have h1 : (1 : ℕ) = 2 ^ 0 := rfl
          rw [h1, Nat.testBit_two_pow]
          rfl
        · left
          rw [Bool.and_eq_true]
          refine ⟨by simp; omega, ?_⟩
          rw [ihj (c - 1)]
          refine ⟨by omega, ?_⟩
          have he : m - 1 - (c - 1) = m + 1 - 1 - c := by omega
          rw [he]
          exact hc2

lemma bitrevPar_eq_bitrevIter (k i : ℕ) : bitrevPar k i = bitrevIter k i := by
  apply Nat.eq_of_testBit_eq
  intro b
  rw [Bool.eq_iff_iff, bitrevPar_testBit, bitrevIter_testBit]

lemma bitrevIter_lt (k i : ℕ) : bitrevIter k i < 2 ^ k := by
  have h0 : bitrevIter k i >>> k = 0 := by
    apply Nat.eq_of_testBit_eq
    intro j
    rw [Nat.testBit_shiftRight, Nat.zero_testBit]
    cases h : (bitrevIter k i).testBit (k + j)
    · rfl
    · have := (bitrevIter_testBit k i (k + j)).mp h
      omega
  rw [Nat.shiftRight_eq_div_pow] at h0
  exact (Nat.div_eq_zero_iff (pow_pos (by norm_num) k)).mp h0

lemma testBit_false_of_lt (i k b : ℕ) (hik : i < 2 ^ k) (hkb : k ≤ b) :
    i.testBit b = false := by
  rw [Nat.testBit_to_div_mod]
  have h : i / 2 ^ b = 0 :=
    (Nat.div_eq_zero_iff (pow_pos (by norm_num) b)).mpr
      (lt_of_lt_of_le hik (Nat.pow_le_pow_right (by norm_num) hkb))
  rw [h]
  rfl

lemma bitrevIter_invol (k i : ℕ) (h : i < 2 ^ k) : bitrevIter k (bitrevIter k i) = i := by
  apply Nat.eq_of_testBit_eq
  intro b
  rw [Bool.eq_iff_iff, bitrevIter_testBit]
  constructor
  · rintro ⟨h1, h2⟩
    rw [bitrevIter_testBit] at h2
    obtain ⟨h3, h4⟩ := h2
    have hb : k - 1 - (k - 1 - b) = b := by omega
    rwa [hb] at h4
  · intro hb
    have hbk : b < k := by
      by_contra hc
      rw [testBit_false_of_lt i k b h (by omega)] at hb
      exact Bool.noConfusion hb
    refine ⟨hbk, ?_⟩
    rw [bitrevIter_testBit]
    refine ⟨by omega, ?_⟩
    have hb2 : k - 1 - (k - 1 - b) = b := by omega
    rwa [hb2]

lemma bitrevIter_injOn (k i j : ℕ) (hi : i < 2 ^ k) (hj : j < 2 ^ k)
    (h : bitrevIter k i = bitrevIter k j) : i = j := by
  have := congrArg (bitrevIter k) h
  rwa [bitrevIter_invol k i hi, bitrevIter_invol k j hj] at this

/-! Power-of-two recognizer: the check `(n & (n - 1)) != 0` used by the
iterative engine. -/

lemma pow_two_and_pred (k : ℕ) : 2 ^ k &&& (2 ^ k - 1) = 0 := by
  apply Nat.eq_of_testBit_eq
  intro b
  rw [Nat.testBit_and, Nat.testBit_two_pow, Nat.testBit_two_pow_sub_one, Nat.zero_testBit]
  by_cases hkb : k = b
  · subst hkb
    simp
  · simp [hkb]

lemma and_pred_pow_two (n : ℕ) (h0 : n ≠ 0) (h : n &&& (n - 1) = 0) : ∃ k, n = 2 ^ k := by
  refine ⟨Nat.log 2 n, ?_⟩
  have h1 : 2 ^ Nat.log 2 n ≤ n := Nat.pow_log_le_self 2 h0
  have h2 : n < 2 ^ (Nat.log 2 n + 1) := Nat.lt_pow_succ_log_self (by norm_num) n
  set k := Nat.log 2 n with hk
  by_contra hne
  have hlt : 2 ^ k < n := lt_of_le_of_ne h1 (fun he => hne he.symm)
  have hp : 2 ^ (k + 1) = 2 ^ k * 2 := pow_succ 2 k
  set b := n - 2 ^ k with hb
  have hb1 : 1 ≤ b := by omega
  have hb2 : b < 2 ^ k := by omega
  have hn : n = 2 ^ k * 1 + b := by omega
  have hn1 : n - 1 = 2 ^ k * 1 + (b - 1) := by omega
  have ht1 : n.testBit k = true := by
    rw [hn, Nat.testBit_mul_pow_two_add 1 hb2 k]
    simp
  have ht2 : (n - 1).testBit k = true := by
    rw [hn1, Nat.testBit_mul_pow_two_add 1 (by omega) k]
    simp
  have hand : (n &&& (n - 1)).testBit k = true := by
    rw [Nat.testBit_and, ht1, ht2]
    rfl
  rw [h, Nat.zero_testBit] at hand
  exact Bool.noConfusion hand

lemma pow_two_iff_and_pred (n : ℕ) (h0 : n ≠ 0) :
    (n &&& (n - 1) = 0) ↔ ∃ k, n = 2 ^ k := by
  constructor
  · exact and_pred_pow_two n h0
  · rintro ⟨k, rfl⟩
    exact pow_two_and_pred k

/-! Characterization of the permutation loop: with an injective in-range
index map every destination is written exactly once, so the result is
independent of the initial buffer contents. -/

lemma foldl_set_length (l : List ℕ) (g : ℕ → ℕ) (v : ℕ → ℂ) (init : List ℂ) :
    (l.foldl (fun out i => out.set (g i) (v i)) init).length = init.length := by
  induction l generalizing init with
  | nil => rfl
  | cons a t ih => rw [List.foldl_cons, ih, List.length_set]

lemma permFold_length (f : ℕ → ℕ) (x init : List ℂ) :
    (permFold f x init).length = init.length := by
  unfold permFold
  exact foldl_set_length _ _ _ _

lemma permFold_getD (f : ℕ → ℕ) (x init : List ℂ) (hinit : init.length = x.length)
    (hf : ∀ i, i < x.length → f i < x.length)
    (hinj : ∀ i j, i < x.length → j < x.length → f i = f j → i = j) :
    ∀ i, i < x.length → (permFold f x init).getD (f i) 0 = x.getD i 0 := by
  suffices h : ∀ m, m ≤ x.length → ∀ i, i < m →
      (((List.range m).foldl (fun out i => out.set (f i) (x.getD i 0)) init)).getD (f i) 0
        = x.getD i 0 by
    exact h x.length le_rfl
  intro m
  induction m with
  | zero =>
    intro _ i hi
    omega
  | succ m ih =>
    intro hm i hi
    rw [foldl_range_succ]
    have hlen : ((List.range m).foldl (fun out i => out.set (f i) (x.getD i 0)) init).length
        = x.length := by rw [foldl_set_length, hinit]
    by_cases him : i = m
    · subst him
      rw [getD_set_eq _ _ _ (by rw [hlen]; exact hf i (by omega))]
    · have hip : i < m := by omega
      rw [getD_set_ne _ _ _ _ (fun he => him (hinj m i (by omega) (by omega) he).symm)]
      exact ih (by omega) i hip

lemma permFold_bitrev_getD (k : ℕ) (x init : List ℂ) (hx : x.length = 2 ^ k)
    (hinit : init.length = 2 ^ k) (j : ℕ) (hj : j < 2 ^ k) :
    (permFold (bitrevIter k) x init).getD j 0 = x.getD (bitrevIter k j) 0 := by
  have h := permFold_getD (bitrevIter k) x init (by omega)
    (fun i _ => by rw [hx]; exact bitrevIter_lt k i)
    (fun i j2 hi hj2 he =>
      bitrevIter_injOn k i j2 (by rw [hx] at hi; exact hi) (by rw [hx] at hj2; exact hj2) he)
    (bitrevIter k j) (by rw [hx]; exact bitrevIter_lt k j)
  rwa [bitrevIter_invol k j hj] at h

/-! Index access lemmas for the even/odd split of the recursive engine. -/

lemma splitEvenOdd_fst_getD : ∀ (x : List ℂ) (t : ℕ),
    (splitEvenOdd x).1.getD t 0 = x.getD (2 * t) 0
  | [], t => by simp [splitEvenOdd]
  | [a], t => by
    cases t with
    | zero => rfl
    | succ t =>
      show ([a] : List ℂ).getD (t + 1) 0 = ([a] : List ℂ).getD (2 * (t + 1)) 0
      rw [getD_eq_zero _ _ (by simp), getD_eq_zero _ _ (by simp; omega)]
  | a :: b :: tl, t => by
    cases t with
    | zero => rfl
    | succ t =>
      have ih := splitEvenOdd_fst_getD tl t
      have h1 : 2 * (t + 1) = 2 * t + 1 + 1 := by ring
      simp only [splitEvenOdd, h1, List.getD_cons_succ]
      exact ih

lemma splitEvenOdd_snd_getD : ∀ (x : List ℂ) (t : ℕ),
    (splitEvenOdd x).2.getD t 0 = x.getD (2 * t + 1) 0
  | [], t => by simp [splitEvenOdd]
  | [a], t => by
    cases t with
    | zero => rfl
    | succ t => simp [splitEvenOdd]
  | a :: b :: tl, t => by
    cases t with
    | zero => rfl
    | succ t =>
      have ih := splitEvenOdd_snd_getD tl t
      have h1 : 2 * (t + 1) + 1 = 2 * t + 1 + 1 + 1 := by ring
      simp only [splitEvenOdd, h1, List.getD_cons_succ]
      exact ih

lemma splitEvenOdd_fst_length : ∀ (x : List ℂ),
    (splitEvenOdd x).1.length = (x.length + 1) / 2
  | [] => rfl
  | [a] => by simp [splitEvenOdd]
  | a :: b :: tl => by
    have ih := splitEvenOdd_fst_length tl
    simp only [splitEvenOdd, List.length_cons]
    rw [ih]
    omega

lemma splitEvenOdd_snd_length : ∀ (x : List ℂ),
    (splitEvenOdd x).2.length = x.length / 2
  | [] => rfl
  | [a] => by simp [splitEvenOdd]
  | a :: b :: tl => by
    have ih := splitEvenOdd_snd_length tl
    simp only [splitEvenOdd, List.length_cons]
    rw [ih]
    omega

/-! Exact root-of-unity algebra for the stage twiddles. -/

lemma cexpUnit_mul (n : ℕ) (a b : ℤ) :
    cexpUnit n a * cexpUnit n b = cexpUnit n (a + b) := by
  unfold cexpUnit
  rw [← Complex.exp_add]
  congr 1
  rw [div_add_div_same]
  push_cast
  ring

lemma cexpUnit_pow (n : ℕ) (d : ℤ) (j : ℕ) :
    cexpUnit n d ^ j = cexpUnit n (d * j) := by
  unfold cexpUnit
  rw [← Complex.exp_nat_mul]
  congr 1
  push_cast
  ring

lemma cexpUnit_int_mul (n : ℕ) (m : ℤ) (hn : n ≠ 0) : cexpUnit n ((n : ℤ) * m) = 1 := by
  unfold cexpUnit
  have hnc : (n : ℂ) ≠ 0 := Nat.cast_ne_zero.mpr hn
  have harg : 2 * (Real.pi : ℂ) * Complex.I * (((n : ℤ) * m : ℤ) : ℂ) / (n : ℂ)
      = (m : ℂ) * (2 * (Real.pi : ℂ) * Complex.I) := by
    push_cast
    field_simp
    ring
  rw [harg]
  exact Complex.exp_int_mul_two_pi_mul_I m

lemma cexpUnit_eq_one_iff (n : ℕ) (hn : 0 < n) (d : ℤ) :
    cexpUnit n d = 1 ↔ (n : ℤ) ∣ d := by
  constructor
  · intro h
    unfold cexpUnit at h
    rw [Complex.exp_eq_one_iff] at h
    obtain ⟨m, hm⟩ := h
    have hnc : (n : ℂ) ≠ 0 := Nat.cast_ne_zero.mpr (by omega)
    have hpi : (2 * (Real.pi : ℂ) * Complex.I) ≠ 0 := by
      simp [Real.pi_ne_zero, Complex.I_ne_zero, Complex.ofReal_ne_zero]
    have hdc : (d : ℂ) = (m : ℂ) * (n : ℂ) := by
      have h1 : 2 * (Real.pi : ℂ) * Complex.I * (d : ℂ)
          = (m : ℂ) * (2 * (Real.pi : ℂ) * Complex.I) * (n : ℂ) := by
        field_simp at hm
        linear_combination hm
      have h2 : (2 * (Real.pi : ℂ) * Complex.I) * (d : ℂ)
          = (2 * (Real.pi : ℂ) * Complex.I) * ((m : ℂ) * (n : ℂ)) := by
        linear_combination h1
      exact mul_left_cancel₀ hpi h2
    have hdz : d = m * (n : ℤ) := by exact_mod_cast hdc
    exact ⟨m, by rw [hdz]; ring⟩
  · rintro ⟨m, rfl⟩
    exact cexpUnit_int_mul n m (by omega)

lemma sum_cexpUnit_pow (n : ℕ) (hn : 0 < n) (d : ℤ) :
    ∑ j ∈ Finset.range n, cexpUnit n d ^ j = if (n : ℤ) ∣ d then (n : ℂ) else 0 := by
  by_cases hd : (n : ℤ) ∣ d
  · rw [if_pos hd]
    have h1 : cexpUnit n d = 1 := (cexpUnit_eq_one_iff n hn d).mpr hd
    simp [h1]
  · rw [if_neg hd]
    have h1 : cexpUnit n d ≠ 1 := fun he => hd ((cexpUnit_eq_one_iff n hn d).mp he)
    rw [geom_sum_eq h1]
    have h2 : cexpUnit n d ^ n = 1 := by
      rw [cexpUnit_pow]
      have h3 : d * (n : ℤ) = (n : ℤ) * d := by ring
      rw [h3]
      exact cexpUnit_int_mul n d (by omega)
    rw [h2]
    simp

lemma wlenOf_eq_cexpUnit (inverse : Bool) (len : ℕ) :
    wlenOf inverse len = cexpUnit len (if inverse then 1 else -1) := by
  cases inverse
  · have ha : angleOf false len = -2 * Real.pi / len := rfl
    have hi : (if (false : Bool) then (1 : ℤ) else -1) = -1 := rfl
    rw [wlenOf, cexpUnit, ha, hi]
    congr 1
    push_cast
    ring
  · have ha : angleOf true len = 2 * Real.pi / len := rfl
    have hi : (if (true : Bool) then (1 : ℤ) else -1) = 1 := rfl
    rw [wlenOf, cexpUnit, ha, hi]
    congr 1
    push_cast
    ring

lemma exp_angle_mul (inverse : Bool) (len j : ℕ) :
    Complex.exp ((angleOf inverse len * (j : ℝ)) * Complex.I) = wlenOf inverse len ^ j := by
  rw [wlenOf, ← Complex.exp_nat_mul]
  congr 1
  push_cast
  ring

lemma cexpUnit_mul_cancel (a n : ℕ) (d : ℤ) (ha : 0 < a) :
    cexpUnit (a * n) ((a : ℤ) * d) = cexpUnit n d := by
  by_cases hn : n = 0
  · subst hn
    simp [cexpUnit]
  · unfold cexpUnit
    congr 1
    have hac : (a : ℂ) ≠ 0 := Nat.cast_ne_zero.mpr (by omega)
    have hnc : (n : ℂ) ≠ 0 := Nat.cast_ne_zero.mpr hn
    push_cast
    field_simp
    ring

lemma wlenOf_sq (inverse : Bool) (m : ℕ) (hm : 0 < m) :
    wlenOf inverse (2 * m) ^ 2 = wlenOf inverse m := by
  rw [wlenOf_eq_cexpUnit, wlenOf_eq_cexpUnit, cexpUnit_pow]
  have h1 : (if inverse then (1 : ℤ) else -1) * ((2 : ℕ) : ℤ)
      = (2 : ℤ) * (if inverse then (1 : ℤ) else -1) := by ring
  rw [h1]
  exact_mod_cast cexpUnit_mul_cancel 2 m (if inverse then (1 : ℤ) else -1) (by norm_num)

lemma wlenOf_half (inverse : Bool) (m : ℕ) (hm : 0 < m) :
    wlenOf inverse (2 * m) ^ m = -1 := by
  rw [wlenOf_eq_cexpUnit, cexpUnit_pow]
  have hmc : (m : ℂ) ≠ 0 := Nat.cast_ne_zero.mpr (by omega)
  cases inverse
  · have hi : (if (false : Bool) then (1 : ℤ) else -1) = -1 := rfl
    rw [hi]
    unfold cexpUnit
    have harg : 2 * (Real.pi : ℂ) * Complex.I * (((-1 : ℤ) * (m : ℕ) : ℤ) : ℂ) / ((2 * m : ℕ) : ℂ)
        = -((Real.pi : ℂ) * Complex.I) := by
      push_cast
      field_simp
      ring
    rw [harg, Complex.exp_neg, Complex.exp_pi_mul_I]
    norm_num
  · have hi : (if (true : Bool) then (1 : ℤ) else -1) = 1 := rfl
    rw [hi]
    unfold cexpUnit
    have harg : 2 * (Real.pi : ℂ) * Complex.I * (((1 : ℤ) * (m : ℕ) : ℤ) : ℂ) / ((2 * m : ℕ) : ℂ)
        = (Real.pi : ℂ) * Complex.I := by
      push_cast
      field_simp
      ring
    rw [harg, Complex.exp_pi_mul_I]

lemma wlenOf_full (inverse : Bool) (m : ℕ) (hm : 0 < m) :
    wlenOf inverse (2 * m) ^ (2 * m) = 1 := by
  have h1 : wlenOf inverse (2 * m) ^ (2 * m) = (wlenOf inverse (2 * m) ^ m) ^ 2 := by
    rw [← pow_mul]
    congr 1
    ring
  rw [h1, wlenOf_half inverse m hm]
  norm_num

/-! Facts about the DFT specification. -/

lemma dft_length (inverse : Bool) (x : List ℂ) : (dft inverse x).length = x.length := by
  simp [dft]

lemma dft_getD (inverse : Bool) (x : List ℂ) (k : ℕ) (hk : k < x.length) :
    (dft inverse x).getD k 0
      = ∑ j ∈ Finset.range x.length, x.getD j 0 * wlenOf inverse x.length ^ (j * k) := by
  unfold dft
  rw [getD_map_range _ _ _ hk]

lemma dft_singleton (inverse : Bool) (a : ℂ) : dft inverse [a] = [a] := by
  simp [dft]

lemma sum_range_even_odd (f : ℕ → ℂ) (m : ℕ) :
    ∑ i ∈ Finset.range (2 * m), f i
      = ∑ t ∈ Finset.range m, f (2 * t) + ∑ t ∈ Finset.range m, f (2 * t + 1) := by
  induction m with
  | zero => simp
  | succ m ih =>
    have h1 : 2 * (m + 1) = 2 * m + 1 + 1 := by ring
    rw [h1]
    simp only [Finset.sum_range_succ]
    rw [ih]
    ring

lemma wlenOf_half_pow_one (inverse : Bool) (m : ℕ) (hm : 0 < m) :
    wlenOf inverse m ^ m = 1 := by
  rw [← wlenOf_sq inverse m hm, ← pow_mul]
  exact wlenOf_full inverse m hm

/-- Radix-2 butterfly identity: combining the DFTs of the even and odd
subsequences with twiddles `w^j`, `w = wlen` of the doubled length, yields
the DFT of the interleaved sequence. -/
lemma combine_dft (inverse : Bool) (x : List ℂ) (m : ℕ) (hm : 0 < m)
    (hx : x.length = 2 * m) :
    combineHalves (wlenOf inverse (2 * m)) (dft inverse (splitEvenOdd x).1)
      (dft inverse (splitEvenOdd x).2) = dft inverse x := by
  set w := wlenOf inverse (2 * m) with hw
  have hEl : (splitEvenOdd x).1.length = m := by
    rw [splitEvenOdd_fst_length, hx]; omega
  have hOl : (splitEvenOdd x).2.length = m := by
    rw [splitEvenOdd_snd_length, hx]; omega
  have hdE : (dft inverse (splitEvenOdd x).1).length = m := by rw [dft_length, hEl]
  have hdO : (dft inverse (splitEvenOdd x).2).length = m := by rw [dft_length, hOl]
  have hwm : wlenOf inverse m ^ m = 1 := wlenOf_half_pow_one inverse m hm
  -- value of the even-indexed / odd-indexed partial DFTs
  have hdEg : ∀ q, q < m → (dft inverse (splitEvenOdd x).1).getD q 0
      = ∑ t ∈ Finset.range m, x.getD (2 * t) 0 * wlenOf inverse m ^ (t * q) := by
    intro q hq
    rw [dft_getD inverse _ q (by omega), hEl]
    exact Finset.sum_congr rfl (fun t _ => by rw [splitEvenOdd_fst_getD])
  have hdOg : ∀ q, q < m → (dft inverse (splitEvenOdd x).2).getD q 0
      = ∑ t ∈ Finset.range m, x.getD (2 * t + 1) 0 * wlenOf inverse m ^ (t * q) := by
    intro q hq
    rw [dft_getD inverse _ q (by omega), hOl]
    exact Finset.sum_congr rfl (fun t _ => by rw [splitEvenOdd_snd_getD])
  -- the full DFT split into even and odd index sums
  have key : ∀ k, k < 2 * m → (dft inverse x).getD k 0
      = (∑ t ∈ Finset.range m, x.getD (2 * t) 0 * wlenOf inverse m ^ (t * k))
        + w ^ k * (∑ t ∈ Finset.range m, x.getD (2 * t + 1) 0 * wlenOf inverse m ^ (t * k)) := by
    intro k hk
    rw [dft_getD inverse x k (by omega), hx]
    rw [sum_range_even_odd (fun j => x.getD j 0 * wlenOf inverse (2 * m) ^ (j * k)) m]
    congr 1
    · refine Finset.sum_congr rfl (fun t _ => ?_)
      have he : 2 * t * k = 2 * (t * k) := by ring
      rw [he, pow_mul, wlenOf_sq inverse m hm]
    · rw [Finset.mul_sum]
      refine Finset.sum_congr rfl (fun t _ => ?_)
      have he : (2 * t + 1) * k = k + 2 * (t * k) := by ring
      rw [he, pow_add, pow_mul, wlenOf_sq inverse m hm]
      ring
  -- exponent periodicity modulo m in the half-length DFT sums
  have hpowm : ∀ t, wlenOf inverse m ^ (m * t) = 1 := by
    intro t
    rw [pow_mul, hwm, one_pow]
  apply eq_of_getD
  · simp [combineHalves, hdE, dft_length, hx]
    omega
  · intro p hp
    have hp2 : p < 2 * m := by
      simp [combineHalves, hdE, dft_length, hx] at hp
      omega
    have hlen1 : (((List.range (dft inverse (splitEvenOdd x).1).length).map
        (fun j => (dft inverse (splitEvenOdd x).1).getD j 0
          + w ^ j * (dft inverse (splitEvenOdd x).2).getD j 0)).length) = m := by
      simp [hdE]
    by_cases hpm : p < m
    · rw [combineHalves, getD_append_left _ _ _ (by rw [hlen1]; omega)]
      rw [hdE, getD_map_range _ _ _ (by omega)]
      rw [key p hp2, hdEg p hpm, hdOg p hpm]
    · have hq : p - m < m := by omega
      rw [combineHalves, getD_append_right _ _ _ (by rw [hlen1]; omega), hlen1, hdE]
      rw [getD_map_range _ _ _ (by omega)]
      rw [key p hp2, hdEg (p - m) hq, hdOg (p - m) hq]
      have h3 : p = (p - m) + m := by omega
      have hper2 : ∀ t, wlenOf inverse m ^ (t * p)
          = wlenOf inverse m ^ (t * (p - m)) := by
        intro t
        have h4 : t * p = t * (p - m) + m * t := by
          calc t * p = t * ((p - m) + m) := by rw [← h3]
          _ = t * (p - m) + m * t := by ring
        rw [h4, pow_add, hpowm, mul_one]
      have hE2 : (∑ t ∈ Finset.range m, x.getD (2 * t) 0 * wlenOf inverse m ^ (t * p))
          = ∑ t ∈ Finset.range m, x.getD (2 * t) 0 * wlenOf inverse m ^ (t * (p - m)) :=
        Finset.sum_congr rfl (fun t _ => by rw [hper2])
      have hO2 : (∑ t ∈ Finset.range m, x.getD (2 * t + 1) 0 * wlenOf inverse m ^ (t * p))
          = ∑ t ∈ Finset.range m, x.getD (2 * t + 1) 0 * wlenOf inverse m ^ (t * (p - m)) :=
        Finset.sum_congr rfl (fun t _ => by rw [hper2])
      have hwhalf : w ^ m = -1 := by
        rw [hw]
        exact wlenOf_half inverse m hm
      have hwp : w ^ p = -(w ^ (p - m)) := by
        calc w ^ p = w ^ ((p - m) + m) := by rw [← h3]
        _ = w ^ (p - m) * w ^ m := pow_add w (p - m) m
        _ = -(w ^ (p - m)) := by rw [hwhalf]; ring
      rw [hE2, hO2, hwp]
      ring

lemma getD_map_div (l : List ℂ) (c : ℂ) (p : ℕ) (hp : p < l.length) :
    (l.map (fun z => z / c)).getD p 0 = l.getD p 0 / c := by
  simp [List.getD_eq_getElem?_getD, List.getElem?_map, List.getElem?_eq_getElem hp]

lemma int_dvd_small (n : ℕ) (d : ℤ) (hd : (n : ℤ) ∣ d) (h1 : -(n : ℤ) < d)
    (h2 : d < n) : d = 0 :=
  Int.eq_zero_of_abs_lt_dvd hd (abs_lt.mpr ⟨h1, h2⟩)

/-- Orthogonality: composing the forward DFT with the unnormalized inverse
DFT multiplies every sample by N. -/
lemma dft_dft_getD (x : List ℂ) (k : ℕ) (hk : k < x.length) :
    (dft true (dft false x)).getD k 0 = (x.length : ℂ) * x.getD k 0 := by
  have hn : 0 < x.length := by omega
  set n := x.length with hnn
  have hd : (dft false x).length = n := dft_length false x
  rw [dft_getD true (dft false x) k (by rw [hd]; omega), hd]
  have step1 : ∀ j ∈ Finset.range n, (dft false x).getD j 0 * wlenOf true n ^ (j * k)
      = ∑ i ∈ Finset.range n, x.getD i 0 * (wlenOf false n ^ (i * j) * wlenOf true n ^ (j * k)) := by
    intro j hj
    rw [dft_getD false x j (Finset.mem_range.mp hj), Finset.sum_mul]
    exact Finset.sum_congr rfl (fun i _ => by ring)
  rw [Finset.sum_congr rfl step1, Finset.sum_comm]
  have inner : ∀ i j : ℕ, wlenOf false n ^ (i * j) * wlenOf true n ^ (j * k)
      = cexpUnit n ((k : ℤ) - (i : ℤ)) ^ j := by
    intro i j
    rw [wlenOf_eq_cexpUnit, wlenOf_eq_cexpUnit]
    have hif1 : (if (false : Bool) then (1 : ℤ) else -1) = -1 := rfl
    have hif2 : (if (true : Bool) then (1 : ℤ) else -1) = 1 := rfl
    rw [hif1, hif2, cexpUnit_pow, cexpUnit_pow, cexpUnit_mul, cexpUnit_pow]
    congr 1
    push_cast
    ring
  have step2 : ∀ i ∈ Finset.range n,
      (∑ j ∈ Finset.range n, x.getD i 0 * (wlenOf false n ^ (i * j) * wlenOf true n ^ (j * k)))
      = x.getD i 0 * (if ((n : ℤ) ∣ ((k : ℤ) - (i : ℤ))) then (n : ℂ) else 0) := by
    intro i _
    rw [← Finset.mul_sum]
    congr 1
    rw [Finset.sum_congr rfl (fun j _ => inner i j)]
    exact sum_cexpUnit_pow n hn ((k : ℤ) - (i : ℤ))
  rw [Finset.sum_congr rfl step2]
  have hfin : ∀ i ∈ Finset.range n, i ≠ k →
      x.getD i 0 * (if ((n : ℤ) ∣ ((k : ℤ) - (i : ℤ))) then (n : ℂ) else 0) = 0 := by
    intro i hi hik
    have hi' : i < n := Finset.mem_range.mp hi
    have hnd : ¬ ((n : ℤ) ∣ ((k : ℤ) - (i : ℤ))) := by
      intro hdvd
      have h0 : ((k : ℤ) - (i : ℤ)) = 0 :=
        int_dvd_small n _ hdvd (by omega) (by omega)
      omega
    rw [if_neg hnd]
    ring
  rw [Finset.sum_eq_single_of_mem k (Finset.mem_range.mpr hk) hfin]
  rw [if_pos (by simp)]
  ring

/-- Round trip through the DFT: the inverse pass divided by N restores the
original samples. -/
lemma dft_roundtrip (x : List ℂ) (hn : 0 < x.length) :
    (dft true (dft false x)).map (fun z => z / (x.length : ℂ)) = x := by
  apply eq_of_getD
  · simp [dft_length]
  · intro p hp
    have hp2 : p < x.length := by simpa [dft_length] using hp
    rw [getD_map_div _ _ _ (by rw [dft_length, dft_length]; omega)]
    rw [dft_dft_getD x p hp2]
    have hnz : (x.length : ℂ) ≠ 0 := Nat.cast_ne_zero.mpr (by omega)
    field_simp

/-- Forward DFT of the all-ones signal: N in slot zero, zero elsewhere. -/
lemma dft_ones (n : ℕ) (hn : 0 < n) :
    dft false (List.replicate n 1) = (n : ℂ) :: List.replicate (n - 1) 0 := by
  apply eq_of_getD
  · simp [dft_length]
    omega
  · intro p hp
    have hlen : (List.replicate n (1 : ℂ)).length = n := by simp
    have hp2 : p < n := by simpa [dft_length] using hp
    rw [dft_getD false _ p (by rw [hlen]; omega), hlen]
    have hone : ∀ j, j < n → (List.replicate n (1 : ℂ)).getD j 0 = 1 := by
      intro j hj
      simp [List.getD_eq_getElem?_getD, List.getElem?_replicate, hj]
    have hsum : (∑ j ∈ Finset.range n,
          (List.replicate n (1 : ℂ)).getD j 0 * wlenOf false n ^ (j * p))
        = ∑ j ∈ Finset.range n, cexpUnit n (-(p : ℤ)) ^ j := by
      refine Finset.sum_congr rfl (fun j hj => ?_)
      rw [hone j (Finset.mem_range.mp hj), one_mul, wlenOf_eq_cexpUnit]
      have hif : (if (false : Bool) then (1 : ℤ) else -1) = -1 := rfl
      rw [hif, cexpUnit_pow, cexpUnit_pow]
      congr 1
      push_cast
      ring
    rw [hsum, sum_cexpUnit_pow n hn]
    cases p with
    | zero =>
      rw [if_pos (by simp)]
      rfl
    | succ q =>
      have hnd : ¬ ((n : ℤ) ∣ (-((q + 1 : ℕ) : ℤ))) := by
        intro hdvd
        have h0 : (-((q + 1 : ℕ) : ℤ)) = 0 :=
          int_dvd_small n _ hdvd (by push_cast; omega) (by push_cast; omega)
        push_cast at h0
        omega
      rw [if_neg hnd]
      have hrhs : ((n : ℂ) :: List.replicate (n - 1) 0).getD (q + 1) 0 = 0 := by
        rw [List.getD_cons_succ]
        exact getD_replicate _ _
      rw [hrhs]

/-! Characterization of one butterfly block and of a full stage pass. -/

lemma blockFoldAux_succ (wlen : ℂ) (len i : ℕ) (y : List ℂ) (M : ℕ) :
    blockFoldAux wlen len i y (M + 1)
      = (let s := blockFoldAux wlen len i y M
         let u := s.1.getD (i + M) 0
         let v := s.1.getD (i + M + len / 2) 0 * s.2
         ((s.1.set (i + M) (u + v)).set (i + M + len / 2) (u - v), s.2 * wlen)) := by
  unfold blockFoldAux
  rw [foldl_range_succ]

lemma blockFoldAux_length (wlen : ℂ) (len i : ℕ) (y : List ℂ) (M : ℕ) :
    (blockFoldAux wlen len i y M).1.length = y.length := by
  induction M with
  | zero => rfl
  | succ M ih =>
    rw [blockFoldAux_succ]
    simp only [List.length_set]
    exact ih

lemma butterflyBlock_length (wlen : ℂ) (len i : ℕ) (y : List ℂ) :
    (butterflyBlock wlen len i y).length = y.length :=
  blockFoldAux_length wlen len i y (len / 2)

lemma blockFoldAux_spec (wlen : ℂ) (len i : ℕ) (y : List ℂ)
    (hlen : i + len / 2 + len / 2 ≤ y.length) :
    ∀ M, M ≤ len / 2 →
      (blockFoldAux wlen len i y M).2 = wlen ^ M ∧
      (∀ g, (blockFoldAux wlen len i y M).1.getD g 0 =
        if i ≤ g ∧ g < i + M then
          y.getD g 0 + wlen ^ (g - i) * y.getD (g + len / 2) 0
        else if i + len / 2 ≤ g ∧ g < i + len / 2 + M then
          y.getD (g - len / 2) 0 - wlen ^ (g - len / 2 - i) * y.getD g 0
        else y.getD g 0) := by
  intro M
  induction M with
  | zero =>
    intro _
    constructor
    · rfl
    · intro g
      have h1 : ¬(i ≤ g ∧ g < i + 0) := by omega
      have h2 : ¬(i + len / 2 ≤ g ∧ g < i + len / 2 + 0) := by omega
      rw [if_neg h1, if_neg h2]
      rfl
  | succ M ih =>
    intro hM
    obtain ⟨ihw, ihg⟩ := ih (by omega)
    have hMh : M < len / 2 := by omega
    have hzl : (blockFoldAux wlen len i y M).1.length = y.length :=
      blockFoldAux_length wlen len i y M
    -- the two entries read by iteration M are still untouched
    have hu : (blockFoldAux wlen len i y M).1.getD (i + M) 0 = y.getD (i + M) 0 := by
      rw [ihg]
      have h1 : ¬(i ≤ i + M ∧ i + M < i + M) := by omega
      have h2 : ¬(i + len / 2 ≤ i + M ∧ i + M < i + len / 2 + M) := by omega
      rw [if_neg h1, if_neg h2]
    have hv : (blockFoldAux wlen len i y M).1.getD (i + M + len / 2) 0
        = y.getD (i + M + len / 2) 0 := by
      rw [ihg]
      have h1 : ¬(i ≤ i + M + len / 2 ∧ i + M + len / 2 < i + M) := by omega
      have h2 : ¬(i + len / 2 ≤ i + M + len / 2 ∧ i + M + len / 2 < i + len / 2 + M) := by
        omega
      rw [if_neg h1, if_neg h2]
    rw [blockFoldAux_succ]
    refine ⟨?_, ?_⟩
    · simp only []
      rw [ihw, pow_succ]
    · intro g
      simp only []
      by_cases hg2 : g = i + M + len / 2
      · rw [hg2, getD_set_eq _ _ _ (by rw [List.length_set, hzl]; omega)]
        have hc1 : ¬(i ≤ i + M + len / 2 ∧ i + M + len / 2 < i + (M + 1)) := by omega
        have hc2 : i + len / 2 ≤ i + M + len / 2 ∧ i + M + len / 2 < i + len / 2 + (M + 1) := by
          omega
        rw [if_neg hc1, if_pos hc2]
        rw [hu, hv, ihw]
        have he1 : i + M + len / 2 - len / 2 = i + M := by omega
        rw [he1]
        have he2 : i + M - i = M := by omega
        rw [he2]
        ring
      · by_cases hg1 : g = i + M
        · rw [hg1]
          rw [getD_set_ne _ _ _ _ (by omega)]
          rw [getD_set_eq _ _ _ (by rw [hzl]; omega)]
          have hc1 : i ≤ i + M ∧ i + M < i + (M + 1) := by omega
          rw [if_pos hc1]
          rw [hu, hv, ihw]
          have he1 : i + M - i = M := by omega
          rw [he1]
          ring
        · rw [getD_set_ne _ _ _ _ (fun he => hg2 he.symm),
              getD_set_ne _ _ _ _ (fun he => hg1 he.symm)]
          rw [ihg]
          by_cases hc1 : i ≤ g ∧ g < i + M
          · rw [if_pos hc1, if_pos (by omega : i ≤ g ∧ g < i + (M + 1))]
          · by_cases hc2 : i + len / 2 ≤ g ∧ g < i + len / 2 + M
            · rw [if_neg hc1, if_pos hc2]
              rw [if_neg (by omega : ¬(i ≤ g ∧ g < i + (M + 1))),
                  if_pos (by omega : i + len / 2 ≤ g ∧ g < i + len / 2 + (M + 1))]
            · rw [if_neg hc1, if_neg hc2]
              rw [if_neg (by omega : ¬(i ≤ g ∧ g < i + (M + 1))),
                  if_neg (by omega : ¬(i + len / 2 ≤ g ∧ g < i + len / 2 + (M + 1)))]

lemma butterflyBlock_getD (wlen : ℂ) (len i : ℕ) (y : List ℂ)
    (hlen : i + len / 2 + len / 2 ≤ y.length) (g : ℕ) :
    (butterflyBlock wlen len i y).getD g 0 =
      if i ≤ g ∧ g < i + len / 2 then
        y.getD g 0 + wlen ^ (g - i) * y.getD (g + len / 2) 0
      else if i + len / 2 ≤ g ∧ g < i + len / 2 + len / 2 then
        y.getD (g - len / 2) 0 - wlen ^ (g - len / 2 - i) * y.getD g 0
      else y.getD g 0 :=
  (blockFoldAux_spec wlen len i y hlen (len / 2) le_rfl).2 g

lemma foldl_butterflyBlock_length (wlen : ℂ) (len : ℕ) :
    ∀ (l : List ℕ) (z : List ℂ),
      (l.foldl (fun z b => butterflyBlock wlen len (b * len) z) z).length = z.length := by
  intro l
  induction l with
  | nil => intro z; rfl
  | cons a t ih =>
    intro z
    rw [List.foldl_cons, ih, butterflyBlock_length]

lemma butterflyPass_length (wlen : ℂ) (len n : ℕ) (y : List ℂ) :
    (butterflyPass wlen len n y).length = y.length :=
  foldl_butterflyBlock_length wlen len (List.range (n / len)) y

lemma butterflyPass_getD (wlen : ℂ) (len : ℕ) (y : List ℂ) (hpos : 0 < len)
    (h2 : len / 2 + len / 2 = len) (hdvd : len ∣ y.length) (b r : ℕ) (hr : r < len)
    (hb : (b + 1) * len ≤ y.length) :
    (butterflyPass wlen len y.length y).getD (b * len + r) 0 =
      if r < len / 2 then
        y.getD (b * len + r) 0 + wlen ^ r * y.getD (b * len + r + len / 2) 0
      else
        y.getD (b * len + r - len / 2) 0 - wlen ^ (r - len / 2) * y.getD (b * len + r) 0 := by
  suffices hInv : ∀ B, B ≤ y.length / len → ∀ b r, r < len → (b + 1) * len ≤ y.length →
      ((List.range B).foldl (fun z b2 => butterflyBlock wlen len (b2 * len) z) y).getD
          (b * len + r) 0 =
        if b < B then
          (if r < len / 2 then
            y.getD (b * len + r) 0 + wlen ^ r * y.getD (b * len + r + len / 2) 0
          else
            y.getD (b * len + r - len / 2) 0 - wlen ^ (r - len / 2) * y.getD (b * len + r) 0)
        else y.getD (b * len + r) 0 by
    have hbB : b < y.length / len := by
      have h3 : (b + 1) * len ≤ (y.length / len) * len := by
        rw [Nat.div_mul_cancel hdvd]
        exact hb
      have h4 : b + 1 ≤ y.length / len := Nat.le_of_mul_le_mul_right h3 hpos
      omega
    have := hInv (y.length / len) le_rfl b r hr hb
    rw [if_pos hbB] at this
    exact this
  intro B
  induction B with
  | zero =>
    intro _ b r _ _
    rw [if_neg (by omega)]
    rfl
  | succ B ih =>
    intro hB b r hr hb
    have hBc : (B + 1) * len ≤ y.length := by
      have h3 : (B + 1) * len ≤ (y.length / len) * len := Nat.mul_le_mul_right len hB
      rwa [Nat.div_mul_cancel hdvd] at h3
    have hBl : (B + 1) * len = B * len + len := by ring
    have hbl : (b + 1) * len = b * len + len := by ring
    have ih2 := ih (by omega)
    rw [foldl_range_succ]
    have hzlen : ((List.range B).foldl (fun z b2 => butterflyBlock wlen len (b2 * len) z)
        y).length = y.length := foldl_butterflyBlock_length wlen len _ y
    rw [butterflyBlock_getD wlen len (B * len) _ (by rw [hzlen]; omega) (b * len + r)]
    by_cases hbB : b = B
    · subst hbB
      rw [if_pos (by omega : b < b + 1)]
      by_cases hrh : r < len / 2
      · rw [if_pos hrh]
        rw [if_pos (by omega : b * len ≤ b * len + r ∧ b * len + r < b * len + len / 2)]
        have he1 : b * len + r - b * len = r := by omega
        have he2 : b * len + r + len / 2 = b * len + (r + len / 2) := by omega
        rw [he1, he2]
        rw [ih2 b r hr hb, ih2 b (r + len / 2) (by omega) hb]
        rw [if_neg (by omega : ¬(b < b)), if_neg (by omega : ¬(b < b))]
      · rw [if_neg hrh]
        rw [if_neg (by omega : ¬(b * len ≤ b * len + r ∧ b * len + r < b * len + len / 2))]
        rw [if_pos (by omega :
          b * len + len / 2 ≤ b * len + r ∧ b * len + r < b * len + len / 2 + len / 2)]
        have he1 : b * len + r - len / 2 = b * len + (r - len / 2) := by omega
        rw [he1]
        have he2 : b * len + (r - len / 2) - b * len = r - len / 2 := by omega
        rw [he2]
        rw [ih2 b (r - len / 2) (by omega) hb, ih2 b r hr hb]
        rw [if_neg (by omega : ¬(b < b)), if_neg (by omega : ¬(b < b))]
    · have hsep : b * len + r < B * len ∨ B * len + len ≤ b * len := by
        by_cases hlt : b < B
        · left
          have h5 : (b + 1) * len ≤ B * len := Nat.mul_le_mul_right len (by omega)
          omega
        · right
          have h5 : (B + 1) * len ≤ b * len := Nat.mul_le_mul_right len (by omega)
          omega
      rw [if_neg (by omega : ¬(B * len ≤ b * len + r ∧ b * len + r < B * len + len / 2))]
      rw [if_neg (by omega :
        ¬(B * len + len / 2 ≤ b * len + r ∧ b * len + r < B * len + len / 2 + len / 2))]
      rw [ih2 b r hr hb]
      by_cases hlt : b < B
      · rw [if_pos hlt, if_pos (by omega : b < B + 1)]
      · rw [if_neg hlt, if_neg (by omega : ¬(b < B + 1))]

/-! Characterization of the recursive engine's combine loop. -/

lemma recCombineAux_succ (w : ℂ) (E O : List ℂ) (N M : ℕ) :
    recCombineAux w E O N (M + 1)
      = (let s := recCombineAux w E O N M
         ((s.1.set M (E.getD M 0 + s.2 * O.getD M 0)).set (M + N / 2)
            (E.getD M 0 - s.2 * O.getD M 0), s.2 * w)) := by
  unfold recCombineAux
  rw [foldl_range_succ]

lemma recCombineAux_spec (w : ℂ) (E O : List ℂ) (N : ℕ) :
    ∀ M, M ≤ N / 2 →
      (recCombineAux w E O N M).2 = w ^ M ∧
      (recCombineAux w E O N M).1.length = N ∧
      (∀ p, (recCombineAux w E O N M).1.getD p 0 =
        if p < M then E.getD p 0 + w ^ p * O.getD p 0
        else if N / 2 ≤ p ∧ p < N / 2 + M then
          E.getD (p - N / 2) 0 - w ^ (p - N / 2) * O.getD (p - N / 2) 0
        else 0) := by
  intro M
  induction M with
  | zero =>
    intro _
    refine ⟨rfl, by simp [recCombineAux], ?_⟩
    intro p
    rw [if_neg (by omega), if_neg (by omega)]
    exact getD_replicate N p
  | succ M ih =>
    intro hM
    obtain ⟨ihw, ihl, ihg⟩ := ih (by omega)
    have hN : M + N / 2 < N := by
      have h1 : N / 2 + N / 2 ≤ N := by omega
      omega
    rw [recCombineAux_succ]
    refine ⟨?_, ?_, ?_⟩
    · simp only []
      rw [ihw, pow_succ]
    · simp only [List.length_set]
      exact ihl
    · intro p
      simp only []
      by_cases hp2 : p = M + N / 2
      · rw [hp2, getD_set_eq _ _ _ (by rw [List.length_set, ihl]; omega)]
        rw [if_neg (by omega), if_pos (by omega : N / 2 ≤ M + N / 2 ∧ M + N / 2 < N / 2 + (M + 1))]
        have he : M + N / 2 - N / 2 = M := by omega
        rw [he, ihw]
      · by_cases hp1 : p = M
        · rw [hp1]
          rw [getD_set_ne _ _ _ _ (by omega)]
          rw [getD_set_eq _ _ _ (by rw [ihl]; omega)]
          rw [if_pos (by omega : M < M + 1), ihw]
        · rw [getD_set_ne _ _ _ _ (fun he => hp2 he.symm),
              getD_set_ne _ _ _ _ (fun he => hp1 he.symm)]
          rw [ihg]
          by_cases hc1 : p < M
          · rw [if_pos hc1, if_pos (by omega : p < M + 1)]
          · by_cases hc2 : N / 2 ≤ p ∧ p < N / 2 + M
            · rw [if_neg hc1, if_pos hc2, if_neg (by omega : ¬(p < M + 1)),
                  if_pos (by omega : N / 2 ≤ p ∧ p < N / 2 + (M + 1))]
            · rw [if_neg hc1, if_neg hc2, if_neg (by omega : ¬(p < M + 1)),
                  if_neg (by omega : ¬(N / 2 ≤ p ∧ p < N / 2 + (M + 1)))]

lemma combineHalves_length (w : ℂ) (A B : List ℂ) :
    (combineHalves w A B).length = 2 * A.length := by
  simp [combineHalves]
  ring

lemma combineHalves_getD_left (w : ℂ) (A B : List ℂ) (p : ℕ) (hp : p < A.length) :
    (combineHalves w A B).getD p 0 = A.getD p 0 + w ^ p * B.getD p 0 := by
  unfold combineHalves
  rw [getD_append_left _ _ _ (by simp; omega)]
  rw [getD_map_range _ _ _ hp]

lemma combineHalves_getD_right (w : ℂ) (A B : List ℂ) (p : ℕ) (hp1 : A.length ≤ p)
    (hp2 : p < 2 * A.length) :
    (combineHalves w A B).getD p 0
      = A.getD (p - A.length) 0 - w ^ (p - A.length) * B.getD (p - A.length) 0 := by
  unfold combineHalves
  rw [getD_append_right _ _ _ (by simp; omega)]
  have hl : (((List.range A.length).map
      (fun j => A.getD j 0 + w ^ j * B.getD j 0))).length = A.length := by simp
  rw [hl]
  rw [getD_map_range _ _ _ (by omega)]

lemma recCombine_eq_combineHalves (w : ℂ) (E O : List ℂ) (m : ℕ)
    (hEl : E.length = m) (hOl : O.length = m) :
    recCombine w E O (2 * m) = combineHalves w E O := by
  have hhalf : 2 * m / 2 = m := by omega
  obtain ⟨_, hl, hg⟩ := recCombineAux_spec w E O (2 * m) (2 * m / 2) le_rfl
  apply eq_of_getD
  · rw [recCombine, hl, combineHalves_length, hEl]
  · intro p hp
    rw [recCombine] at hp ⊢
    rw [hl] at hp
    rw [hg p, hhalf]
    by_cases hpm : p < m
    · rw [if_pos hpm, combineHalves_getD_left w E O p (by omega)]
    · rw [if_neg hpm, if_pos (by omega : m ≤ p ∧ p < m + m)]
      rw [combineHalves_getD_right w E O p (by omega) (by omega)]
      rw [hEl]

/-! Equivalence of the two heuristic branches of `Parallel::butterfly_stage`:
the incremental recurrence and the direct-angle computation produce the same
twiddles in exact arithmetic, hence identical buffers. -/

lemma directBlockAux_succ (inverse : Bool) (len i : ℕ) (y : List ℂ) (M : ℕ) :
    directBlockAux inverse len i y (M + 1)
      = (let z2 := directBlockAux inverse len i y M
         let w := Complex.exp ((angleOf inverse len * (M : ℝ)) * Complex.I)
         let u := z2.getD (i + M) 0
         let v := z2.getD (i + M + len / 2) 0 * w
         (z2.set (i + M) (u + v)).set (i + M + len / 2) (u - v)) := by
  unfold directBlockAux
  rw [foldl_range_succ]

lemma blockFold_eq_direct (inverse : Bool) (len i : ℕ) (y : List ℂ) :
    ∀ M, (blockFoldAux (wlenOf inverse len) len i y M).1 = directBlockAux inverse len i y M
      ∧ (blockFoldAux (wlenOf inverse len) len i y M).2 = wlenOf inverse len ^ M := by
  intro M
  induction M with
  | zero => exact ⟨rfl, (pow_zero _).symm⟩
  | succ M ih =>
    obtain ⟨ih1, ih2⟩ := ih
    rw [blockFoldAux_succ, directBlockAux_succ]
    constructor
    · simp only []
      rw [ih1, ih2, exp_angle_mul]
    · simp only []
      rw [ih2, pow_succ]

lemma butterflyBlock_eq_direct (inverse : Bool) (len i : ℕ) (y : List ℂ) :
    butterflyBlock (wlenOf inverse len) len i y = directBlockAux inverse len i y (len / 2) :=
  (blockFold_eq_direct inverse len i y (len / 2)).1

lemma butterflyPass_eq_direct (inverse : Bool) (len n : ℕ) (y : List ℂ) :
    butterflyPass (wlenOf inverse len) len n y = butterflyPassDirect inverse len n y := by
  unfold butterflyPass butterflyPassDirect
  have hfg : (fun (z : List ℂ) (b : ℕ) => butterflyBlock (wlenOf inverse len) len (b * len) z)
      = (fun (z : List ℂ) (b : ℕ) => directBlockAux inverse len (b * len) z (len / 2)) := by
    funext z b
    exact butterflyBlock_eq_direct inverse len (b * len) z
  rw [hfg]

lemma butterfly_stage_eq_pass (inverse : Bool) (local_n len : ℕ) (data : List ℂ) :
    butterfly_stage inverse local_n len data
      = butterflyPass (wlenOf inverse len) len local_n data := by
  unfold butterfly_stage
  by_cases h : 32 ≤ local_n / len
  · rw [if_pos h]
  · rw [if_neg h, butterflyPass_eq_direct]

/-! Control-flow lemmas for the shared stage-loop driver. -/

lemma lenLoop_step {α : Type} (g : ℕ → α → α) (n len : ℕ) (a : α) (h1 : 1 ≤ len)
    (h2 : len ≤ n) : lenLoop g n len a = lenLoop g n (len * 2) (g len a) := by
  rw [lenLoop]
  rw [dif_pos ⟨h1, h2⟩]

lemma lenLoop_stop {α : Type} (g : ℕ → α → α) (n len : ℕ) (a : α) (h : n < len) :
    lenLoop g n len a = a := by
  rw [lenLoop]
  rw [dif_neg (by omega)]

lemma lenLoop_last {α : Type} (g : ℕ → α → α) (k s : ℕ) (h1 : 1 ≤ s) (h2 : s ≤ k + 1)
    (a : α) :
    lenLoop g (2 ^ (k + 1)) (2 ^ s) a = g (2 ^ (k + 1)) (lenLoop g (2 ^ k) (2 ^ s) a) := by
  by_cases hsk : s = k + 1
  · subst hsk
    rw [lenLoop_step g _ _ a (Nat.one_le_two_pow) le_rfl]
    rw [lenLoop_stop g _ _ _ (by
      have : (0 : ℕ) < 2 ^ (k + 1) := Nat.pos_pow_of_pos _ (by norm_num)
      omega)]
    rw [lenLoop_stop g _ _ a (Nat.pow_lt_pow_right (by norm_num) (by omega))]
  · have hsk2 : s ≤ k := by omega
    have hpow : (2 : ℕ) ^ s ≤ 2 ^ k := Nat.pow_le_pow_right (by norm_num) hsk2
    have hpow2 : (2 : ℕ) ^ k ≤ 2 ^ (k + 1) := Nat.pow_le_pow_right (by norm_num) (by omega)
    rw [lenLoop_step g (2 ^ (k + 1)) (2 ^ s) a Nat.one_le_two_pow (by omega)]
    rw [lenLoop_step g (2 ^ k) (2 ^ s) a Nat.one_le_two_pow hpow]
    have hmul : (2 : ℕ) ^ s * 2 = 2 ^ (s + 1) := (pow_succ 2 s).symm
    rw [hmul]
    exact lenLoop_last g k (s + 1) (by omega) (by omega) (g (2 ^ s) a)
termination_by k + 1 - s

/-! Splitting a stage pass over concatenated buffers when the stage width
divides both lengths (no butterfly pair crosses the boundary). -/

lemma exists_block_decomp (g len q : ℕ) (hpos : 0 < len) (hg : g < len * q) :
    ∃ b r, g = b * len + r ∧ r < len ∧ (b + 1) * len ≤ len * q := by
  have hcomm : len * q = q * len := mul_comm len q
  refine ⟨g / len, g % len, ?_, Nat.mod_lt g hpos, ?_⟩
  · rw [mul_comm]
    exact (Nat.div_add_mod g len).symm
  · have hb : g / len < q := (Nat.div_lt_iff_lt_mul hpos).mpr (by omega)
    calc (g / len + 1) * len ≤ q * len := Nat.mul_le_mul_right len hb
    _ = len * q := mul_comm q len

lemma getD_take (y : List ℂ) (m j : ℕ) (hj : j < m) :
    (y.take m).getD j 0 = y.getD j 0 := by
  simp [List.getD_eq_getElem?_getD, List.getElem?_take, hj]

lemma getD_drop (y : List ℂ) (m j : ℕ) :
    (y.drop m).getD j 0 = y.getD (m + j) 0 := by
  simp [List.getD_eq_getElem?_getD, List.getElem?_drop]

lemma iterStage_append (inverse : Bool) (len : ℕ) (A B : List ℂ) (hpos : 0 < len)
    (h2 : len / 2 + len / 2 = len) (hA : len ∣ A.length) (hB : len ∣ B.length) :
    iterStage inverse len (A ++ B) = iterStage inverse len A ++ iterStage inverse len B := by
  obtain ⟨qA, hqA⟩ := hA
  obtain ⟨qB, hqB⟩ := hB
  have hdvdAB : len ∣ (A ++ B).length := by
    rw [List.length_append, hqA, hqB]
    exact Dvd.dvd.add (Dvd.intro qA rfl) (Dvd.intro qB rfl)
  unfold iterStage
  apply eq_of_getD
  · rw [butterflyPass_length]
    simp [butterflyPass_length]
  · intro p hp
    rw [butterflyPass_length, List.length_append] at hp
    by_cases hpA : p < A.length
    · obtain ⟨b, r, hbr, hr, hle⟩ := exists_block_decomp p len qA hpos (by omega)
      have hble : (b + 1) * len ≤ A.length := by omega
      have hbexp : (b + 1) * len = b * len + len := by ring
      subst hbr
      rw [butterflyPass_getD (wlenOf inverse len) len (A ++ B) hpos h2 hdvdAB
        b r hr (by rw [List.length_append]; omega)]
      rw [getD_append_left (butterflyPass (wlenOf inverse len) len A.length A)
        (butterflyPass (wlenOf inverse len) len B.length B) _
        (by rw [butterflyPass_length]; omega)]
      rw [butterflyPass_getD (wlenOf inverse len) len A hpos h2 ⟨qA, hqA⟩ b r hr hble]
      by_cases hrh : r < len / 2
      · rw [if_pos hrh, if_pos hrh]
        rw [getD_append_left _ _ _ (by omega : b * len + r < A.length),
            getD_append_left _ _ _ (by omega : b * len + r + len / 2 < A.length)]
      · rw [if_neg hrh, if_neg hrh]
        rw [getD_append_left _ _ _ (by omega : b * len + r - len / 2 < A.length),
            getD_append_left _ _ _ (by omega : b * len + r < A.length)]
    · have hpB : p - A.length < B.length := by omega
      obtain ⟨b, r, hbr, hr, hle⟩ := exists_block_decomp (p - A.length) len qB hpos (by omega)
      have hble : (b + 1) * len ≤ B.length := by omega
      have hbexp : (b + 1) * len = b * len + len := by ring
      have hp2 : p = (qA + b) * len + r := by
        have h3 : (qA + b) * len = qA * len + b * len := by ring
        have h4 : qA * len = len * qA := mul_comm qA len
        omega
      have hq3 : (qA + b + 1) * len = qA * len + (b + 1) * len := by ring
      have hq4 : qA * len = len * qA := mul_comm qA len
      rw [hp2]
      rw [butterflyPass_getD (wlenOf inverse len) len (A ++ B) hpos h2 hdvdAB
        (qA + b) r hr (by rw [List.length_append]; omega)]
      rw [getD_append_right (butterflyPass (wlenOf inverse len) len A.length A)
        (butterflyPass (wlenOf inverse len) len B.length B) _
        (by rw [butterflyPass_length]; omega)]
      rw [butterflyPass_length]
      have hsub : (qA + b) * len + r - A.length = b * len + r := by omega
      rw [hsub]
      rw [butterflyPass_getD (wlenOf inverse len) len B hpos h2 ⟨qB, hqB⟩ b r hr hble]
      by_cases hrh : r < len / 2
      · rw [if_pos hrh, if_pos hrh]
        have ha0 : (qA + b) * len + r = A.length + (b * len + r) := by omega
        rw [ha0]
        have ha1 : A.length + (b * len + r) + len / 2 = A.length + (b * len + r + len / 2) := by
          omega
        rw [ha1]
        rw [getD_append_right _ _ _ (by omega), getD_append_right _ _ _ (by omega)]
        have hs1 : A.length + (b * len + r) - A.length = b * len + r := by omega
        have hs2 : A.length + (b * len + r + len / 2) - A.length = b * len + r + len / 2 := by
          omega
        rw [hs1, hs2]
      · rw [if_neg hrh, if_neg hrh]
        have ha0 : (qA + b) * len + r = A.length + (b * len + r) := by omega
        rw [ha0]
        have ha1 : A.length + (b * len + r) - len / 2 = A.length + (b * len + r - len / 2) := by
          omega
        rw [ha1]
        rw [getD_append_right _ _ _ (by omega), getD_append_right _ _ _ (by omega)]
        have hs1 : A.length + (b * len + r) - A.length = b * len + r := by omega
        have hs2 : A.length + (b * len + r - len / 2) - A.length = b * len + r - len / 2 := by
          omega
        rw [hs1, hs2]

/-! Doubling laws for the bit-reversal map, used to relate the permutation of
a length-2N signal to the permutations of its even and odd subsequences. -/

lemma testBit_two_mul (R b : ℕ) :
    (2 * R).testBit b = if b = 0 then false else R.testBit (b - 1) := by
  cases b with
  | zero =>
    rw [if_pos rfl, Nat.testBit_to_div_mod]
    have h1 : 2 * R / 2 ^ 0 % 2 = 0 := by omega
    rw [h1]
    rfl
  | succ c =>
    rw [if_neg (by omega)]
    rw [Nat.testBit_succ]
    have h1 : 2 * R / 2 = R := by omega
    rw [h1]
    have h2 : c + 1 - 1 = c := by omega
    rw [h2]

lemma testBit_two_mul_add_one (R b : ℕ) :
    (2 * R + 1).testBit b = if b = 0 then true else R.testBit (b - 1) := by
  cases b with
  | zero =>
    rw [if_pos rfl, Nat.testBit_to_div_mod]
    have h1 : (2 * R + 1) / 2 ^ 0 % 2 = 1 := by omega
    rw [h1]
    rfl
  | succ c =>
    rw [if_neg (by omega)]
    rw [Nat.testBit_succ]
    have h1 : (2 * R + 1) / 2 = R := by omega
    rw [h1]
    have h2 : c + 1 - 1 = c := by omega
    rw [h2]

lemma testBit_pow_add (k j c : ℕ) (hj : j < 2 ^ k) :
    (2 ^ k + j).testBit c = if c < k then j.testBit c else decide (c = k) := by
  have h1 : 2 ^ k + j = 2 ^ k * 1 + j := by ring
  rw [h1, Nat.testBit_mul_pow_two_add 1 hj c]
  by_cases hc : c < k
  · rw [if_pos hc, if_pos hc]
  · rw [if_neg hc, if_neg hc]
    have h2 : (1 : ℕ) = 2 ^ 0 := rfl
    rw [h2, Nat.testBit_two_pow]
    by_cases hck : c = k
    · rw [decide_eq_true (by omega : 0 = c - k), decide_eq_true hck]
    · rw [decide_eq_false (by omega : ¬(0 = c - k)), decide_eq_false hck]

lemma bitrevIter_succ_low (k j : ℕ) (hj : j < 2 ^ k) :
    bitrevIter (k + 1) j = 2 * bitrevIter k j := by
  apply Nat.eq_of_testBit_eq
  intro b
  rw [Bool.eq_iff_iff, testBit_two_mul]
  cases b with
  | zero =>
    rw [bitrevIter_testBit]
    constructor
    · rintro ⟨_, ht⟩
      have h1 : k + 1 - 1 - 0 = k := by omega
      rw [h1, testBit_false_of_lt j k k hj le_rfl] at ht
      exact Bool.noConfusion ht
    · intro h
      rw [if_pos rfl] at h
      exact Bool.noConfusion h
  | succ c =>
    rw [bitrevIter_testBit]
    rw [if_neg (by omega)]
    have h1 : c + 1 - 1 = c := by omega
    rw [h1, bitrevIter_testBit]
    have h2 : k + 1 - 1 - (c + 1) = k - 1 - c := by omega
    rw [h2]
    constructor
    · rintro ⟨hb, ht⟩
      exact ⟨by omega, ht⟩
    · rintro ⟨hb, ht⟩
      exact ⟨by omega, ht⟩

lemma bitrevIter_succ_high (k j : ℕ) (hj : j < 2 ^ k) :
    bitrevIter (k + 1) (2 ^ k + j) = 2 * bitrevIter k j + 1 := by
  apply Nat.eq_of_testBit_eq
  intro b
  rw [Bool.eq_iff_iff, testBit_two_mul_add_one]
  cases b with
  | zero =>
    rw [bitrevIter_testBit]
    rw [if_pos rfl]
    constructor
    · intro _
      rfl
    · intro _
      have h1 : k + 1 - 1 - 0 = k := by omega
      rw [h1, testBit_pow_add k j k hj]
      rw [if_neg (by omega)]
      exact ⟨by omega, decide_eq_true rfl⟩
  | succ c =>
    rw [bitrevIter_testBit]
    rw [if_neg (by omega)]
    have h1 : c + 1 - 1 = c := by omega
    rw [h1, bitrevIter_testBit]
    have h2 : k + 1 - 1 - (c + 1) = k - 1 - c := by omega
    rw [h2]
    constructor
    · rintro ⟨hb, ht⟩
      have hck : c < k := by omega
      rw [testBit_pow_add k j (k - 1 - c) hj, if_pos (by omega)] at ht
      exact ⟨by omega, ht⟩
    · rintro ⟨hb, ht⟩
      refine ⟨by omega, ?_⟩
      rw [testBit_pow_add k j (k - 1 - c) hj, if_pos (by omega)]
      exact ht

/-! The stage loop on a power-of-two prefix splits over an append of two
power-of-two halves, and the final full-width stage is the half-combining
butterfly. -/

lemma lenLoop_append (inverse : Bool) (k s : ℕ) (hs : 1 ≤ s) (A B : List ℂ)
    (hA : A.length = 2 ^ k) (hB : B.length = 2 ^ k) :
    lenLoop (iterStage inverse) (2 ^ k) (2 ^ s) (A ++ B)
      = lenLoop (iterStage inverse) (2 ^ k) (2 ^ s) A
        ++ lenLoop (iterStage inverse) (2 ^ k) (2 ^ s) B := by
  by_cases hsk : (2 : ℕ) ^ s ≤ 2 ^ k
  · have hs_le : s ≤ k := (Nat.pow_le_pow_iff_right (by norm_num)).mp hsk
    obtain ⟨t, rfl⟩ : ∃ t, s = t + 1 := ⟨s - 1, by omega⟩
    have hhalf : 2 ^ (t + 1) / 2 + 2 ^ (t + 1) / 2 = 2 ^ (t + 1) := by
      have he : (2 : ℕ) ^ (t + 1) = 2 ^ t * 2 := pow_succ 2 t
      have hd : (2 : ℕ) ^ (t + 1) / 2 = 2 ^ t := by omega
      omega
    have hdvd : (2 : ℕ) ^ (t + 1) ∣ 2 ^ k := pow_dvd_pow 2 hs_le
    rw [lenLoop_step _ _ _ _ Nat.one_le_two_pow hsk,
        lenLoop_step _ _ _ _ Nat.one_le_two_pow hsk,
        lenLoop_step _ _ _ _ Nat.one_le_two_pow hsk]
    rw [iterStage_append inverse (2 ^ (t + 1)) A B (Nat.pos_pow_of_pos _ (by norm_num))
      hhalf (hA ▸ hdvd) (hB ▸ hdvd)]
    have hmul : (2 : ℕ) ^ (t + 1) * 2 = 2 ^ (t + 2) := (pow_succ 2 (t + 1)).symm
    rw [hmul]
    have hAl2 : (iterStage inverse (2 ^ (t + 1)) A).length = 2 ^ k := by
      rw [iterStage, butterflyPass_length, hA]
    have hBl2 : (iterStage inverse (2 ^ (t + 1)) B).length = 2 ^ k := by
      rw [iterStage, butterflyPass_length, hB]
    exact lenLoop_append inverse k (t + 2) (by omega) _ _ hAl2 hBl2
  · rw [lenLoop_stop _ _ _ _ (by omega), lenLoop_stop _ _ _ _ (by omega),
        lenLoop_stop _ _ _ _ (by omega)]
termination_by k + 1 - s
decreasing_by
  omega

lemma iterStage_full (inverse : Bool) (A B : List ℂ) (m : ℕ) (hm : 0 < m)
    (hA : A.length = m) (hB : B.length = m) :
    iterStage inverse (2 * m) (A ++ B) = combineHalves (wlenOf inverse (2 * m)) A B := by
  unfold iterStage
  have hlen : (A ++ B).length = 2 * m := by
    rw [List.length_append, hA, hB]
    ring
  apply eq_of_getD
  · rw [butterflyPass_length, hlen, combineHalves_length, hA]
  · intro p hp
    rw [butterflyPass_length, hlen] at hp
    have hhalf : (2 * m) / 2 = m := by omega
    have h2 : (2 * m) / 2 + (2 * m) / 2 = 2 * m := by omega
    have hchar := butterflyPass_getD (wlenOf inverse (2 * m)) (2 * m) (A ++ B)
      (by omega) h2 (by rw [hlen]) 0 p (by omega) (by rw [hlen]; omega)
    rw [zero_mul, zero_add] at hchar
    rw [hchar, hhalf]
    by_cases hpm : p < m
    · rw [if_pos hpm, combineHalves_getD_left _ _ _ _ (by omega)]
      rw [getD_append_left _ _ _ (by omega), getD_append_right _ _ _ (by omega : A.length ≤ p + m)]
      have he : p + m - A.length = p := by omega
      rw [he]
    · rw [if_neg hpm, combineHalves_getD_right _ _ _ _ (by omega) (by omega)]
      rw [hA]
      rw [getD_append_left _ _ _ (by omega : p - m < A.length),
          getD_append_right _ _ _ (by omega : A.length ≤ p)]
      have he : p - A.length = p - m := by omega
      rw [he]

/-- Main loop correctness of the iterative engine: the stage loop applied to
a bit-reversed buffer computes the DFT of the original signal. -/
lemma iter_loop_dft (inverse : Bool) :
    ∀ k (x y : List ℂ), x.length = 2 ^ k → y.length = 2 ^ k →
      (∀ j, j < 2 ^ k → y.getD j 0 = x.getD (bitrevIter k j) 0) →
      lenLoop (iterStage inverse) (2 ^ k) 2 y = dft inverse x := by
  intro k
  induction k with
  | zero =>
    intro x y hx hy hchar
    rw [lenLoop_stop _ _ _ _ (by norm_num)]
    apply eq_of_getD
    · rw [hy, dft_length, hx]
    · intro p hp
      rw [hy] at hp
      have hp0 : p = 0 := by
        simp only [pow_zero] at hp
        omega
      subst hp0
      have h0 := hchar 0 (by norm_num)
      have hbr : bitrevIter 0 0 = 0 := rfl
      rw [hbr] at h0
      rw [h0, dft_getD inverse x 0 (by omega), hx]
      simp [Finset.sum_range_one]
  | succ k ih =>
    intro x y hx hy hchar
    have hps : (2 : ℕ) ^ (k + 1) = 2 ^ k + 2 ^ k := by
      rw [pow_succ]
      ring
    have hll := lenLoop_last (iterStage inverse) k 1 le_rfl (by omega) y
    rw [pow_one] at hll
    rw [hll]
    set A := y.take (2 ^ k) with hA_def
    set B := y.drop (2 ^ k) with hB_def
    have hy2 : y = A ++ B := (List.take_append_drop (2 ^ k) y).symm
    have hAl : A.length = 2 ^ k := by
      rw [hA_def, List.length_take, hy]
      omega
    have hBl : B.length = 2 ^ k := by
      rw [hB_def, List.length_drop, hy]
      omega
    have hEl : (splitEvenOdd x).1.length = 2 ^ k := by
      rw [splitEvenOdd_fst_length, hx]
      omega
    have hOl : (splitEvenOdd x).2.length = 2 ^ k := by
      rw [splitEvenOdd_snd_length, hx]
      omega
    have hAchar : ∀ j, j < 2 ^ k → A.getD j 0 = (splitEvenOdd x).1.getD (bitrevIter k j) 0 := by
      intro j hj
      rw [hA_def, getD_take y _ j hj]
      rw [hchar j (by omega)]
      rw [bitrevIter_succ_low k j hj]
      rw [← splitEvenOdd_fst_getD]
    have hBchar : ∀ j, j < 2 ^ k → B.getD j 0 = (splitEvenOdd x).2.getD (bitrevIter k j) 0 := by
      intro j hj
      rw [hB_def, getD_drop y _ j]
      rw [hchar (2 ^ k + j) (by omega)]
      rw [bitrevIter_succ_high k j hj]
      rw [← splitEvenOdd_snd_getD]
    rw [hy2]
    have happ := lenLoop_append inverse k 1 le_rfl A B hAl hBl
    rw [pow_one] at happ
    rw [happ]
    rw [ih (splitEvenOdd x).1 A hEl hAl hAchar, ih (splitEvenOdd x).2 B hOl hBl hBchar]
    have hpow : 2 * 2 ^ k = 2 ^ (k + 1) := by
      rw [pow_succ]
      ring
    have hfull := iterStage_full inverse (dft inverse (splitEvenOdd x).1)
      (dft inverse (splitEvenOdd x).2) (2 ^ k) (Nat.pos_pow_of_pos _ (by norm_num))
      (by rw [dft_length, hEl]) (by rw [dft_length, hOl])
    rw [hpow] at hfull
    rw [hfull]
    have hcd := combine_dft inverse x (2 ^ k) (Nat.pos_pow_of_pos _ (by norm_num))
      (by rw [hx]; omega)
    rw [hpow] at hcd
    exact hcd

/-! Engine-level correctness of the iterative methods. -/

lemma iterative_core_dft (inverse : Bool) (k : ℕ) (x : List ℂ) (oldOut : Option (List ℂ))
    (hx : x.length = 2 ^ k) :
    Iterative.core inverse x oldOut = dft inverse x := by
  have hclog : Nat.clog 2 x.length = k := by
    rw [hx]
    exact Nat.clog_pow 2 k (by norm_num)
  show lenLoop (iterStage inverse) x.length 2
      (permFold (bitrevIter (Nat.clog 2 x.length)) x
        (match oldOut with
         | none => List.replicate x.length 0
         | some o => resizeList o x.length)) = dft inverse x
  rw [hclog, hx]
  have hbuf : (match oldOut with
      | none => List.replicate (2 ^ k) (0 : ℂ)
      | some o => resizeList o (2 ^ k)).length = 2 ^ k := by
    cases oldOut with
    | none => rw [List.length_replicate]
    | some o => rw [length_resizeList]
  exact iter_loop_dft inverse k x _ hx
    (by rw [permFold_length]; exact hbuf)
    (fun j hj => permFold_bitrev_getD k x _ hx hbuf j hj)

lemma pow_two_check_passes (k n : ℕ) (hn : n = 2 ^ k) : ¬(n &&& (n - 1) ≠ 0) := by
  rw [hn]
  rw [pow_two_and_pred k]
  omega

lemma iterative_compute_ok (k tv : ℕ) (x : List ℂ) (o : Option (List ℂ)) (d : ℕ)
    (hx : x.length = 2 ^ k) :
    Iterative.compute tv ⟨x, o, d⟩ = .ok ⟨x, some (dft false x), tv⟩ := by
  unfold Iterative.compute
  have hn0 : ¬((⟨x, o, d⟩ : FourierState).input.length = 0) := by
    show ¬(x.length = 0)
    rw [hx]
    exact (Nat.pos_pow_of_pos k (by norm_num)).ne'
  rw [if_neg hn0, if_neg (pow_two_check_passes k x.length hx)]
  rw [show (⟨x, o, d⟩ : FourierState).input = x from rfl,
      show (⟨x, o, d⟩ : FourierState).output = o from rfl]
  rw [iterative_core_dft false k x o hx]

lemma iterative_reverse_ok (k tv : ℕ) (x : List ℂ) (o : Option (List ℂ)) (d : ℕ)
    (hx : x.length = 2 ^ k) :
    Iterative.reverseCompute tv ⟨x, o, d⟩
      = .ok ⟨x, some ((dft true x).map (fun z => z / (x.length : ℂ))), tv⟩ := by
  unfold Iterative.reverseCompute
  have hn0 : ¬((⟨x, o, d⟩ : FourierState).input.length = 0) := by
    show ¬(x.length = 0)
    rw [hx]
    exact (Nat.pos_pow_of_pos k (by norm_num)).ne'
  rw [if_neg hn0, if_neg (pow_two_check_passes k x.length hx)]
  rw [show (⟨x, o, d⟩ : FourierState).input = x from rfl,
      show (⟨x, o, d⟩ : FourierState).output = o from rfl]
  rw [iterative_core_dft true k x o hx]

/-! Engine-level correctness and termination of the recursive methods. -/

lemma dft_len_one (inverse : Bool) (x : List ℂ) (hx : x.length = 1) :
    dft inverse x = x := by
  apply eq_of_getD
  · rw [dft_length]
  · intro p hp
    rw [dft_length, hx] at hp
    have hp0 : p = 0 := by omega
    subst hp0
    rw [dft_getD inverse x 0 (by omega), hx]
    simp [Finset.sum_range_one]

lemma recursiveFuel_dft (inverse : Bool) :
    ∀ k fuel (x : List ℂ), x.length = 2 ^ k → 2 ^ k ≤ fuel →
      recursiveFuel inverse fuel x = some (dft inverse x) := by
  intro k
  induction k with
  | zero =>
    intro fuel x hx hf
    obtain ⟨f, rfl⟩ : ∃ f, fuel = f + 1 := ⟨fuel - 1, by omega⟩
    simp only [recursiveFuel]
    rw [if_pos (by rw [hx]; rfl)]
    rw [dft_len_one inverse x (by rw [hx]; rfl)]
  | succ k ih =>
    intro fuel x hx hf
    have hps : (2 : ℕ) ^ (k + 1) = 2 ^ k + 2 ^ k := by
      rw [pow_succ]
      ring
    have hppos : (1 : ℕ) ≤ 2 ^ k := Nat.one_le_two_pow
    obtain ⟨f, rfl⟩ : ∃ f, fuel = f + 1 := ⟨fuel - 1, by omega⟩
    simp only [recursiveFuel]
    rw [if_neg (by rw [hx]; omega)]
    have hEl : (splitEvenOdd x).1.length = 2 ^ k := by
      rw [splitEvenOdd_fst_length, hx]
      omega
    have hOl : (splitEvenOdd x).2.length = 2 ^ k := by
      rw [splitEvenOdd_snd_length, hx]
      omega
    rw [ih f (splitEvenOdd x).1 hEl (by omega), ih f (splitEvenOdd x).2 hOl (by omega)]
    show some (recCombine (wlenOf inverse x.length) (dft inverse (splitEvenOdd x).1)
      (dft inverse (splitEvenOdd x).2) x.length) = some (dft inverse x)
    congr 1
    have hpow : (2 : ℕ) * 2 ^ k = 2 ^ (k + 1) := by
      rw [pow_succ]
      ring
    rw [hx, ← hpow]
    rw [recCombine_eq_combineHalves _ _ _ (2 ^ k) (by rw [dft_length, hEl])
      (by rw [dft_length, hOl])]
    have hcd := combine_dft inverse x (2 ^ k) (by omega) (by rw [hx]; omega)
    exact hcd

lemma recursiveFuel_nil (inverse : Bool) : ∀ fuel, recursiveFuel inverse fuel [] = none := by
  intro fuel
  induction fuel with
  | zero => rfl
  | succ f ih =>
    simp only [recursiveFuel]
    rw [if_neg (by simp)]
    rw [show splitEvenOdd ([] : List ℂ) = ([], []) from rfl]
    rw [ih]

lemma recursiveFuel_terminates (inverse : Bool) :
    ∀ n fuel (x : List ℂ), x.length = n → 1 ≤ n → n ≤ fuel →
      ∃ y, recursiveFuel inverse fuel x = some y ∧ y.length = n := by
  intro n
  induction n using Nat.strong_induction_on with
  | _ n ihn =>
    intro fuel x hx h1 hfu
    obtain ⟨f, rfl⟩ : ∃ f, fuel = f + 1 := ⟨fuel - 1, by omega⟩
    by_cases hn1 : n = 1
    · subst hn1
      refine ⟨x, ?_, hx⟩
      simp only [recursiveFuel]
      rw [if_pos hx]
    · have hn2 : 2 ≤ n := by omega
      have hEl : (splitEvenOdd x).1.length = (n + 1) / 2 := by
        rw [splitEvenOdd_fst_length, hx]
      have hOl : (splitEvenOdd x).2.length = n / 2 := by
        rw [splitEvenOdd_snd_length, hx]
      obtain ⟨yE, hyE, _⟩ := ihn ((n + 1) / 2) (by omega) f (splitEvenOdd x).1 hEl
        (by omega) (by omega)
      obtain ⟨yO, hyO, _⟩ := ihn (n / 2) (by omega) f (splitEvenOdd x).2 hOl
        (by omega) (by omega)
      refine ⟨recCombine (wlenOf inverse x.length) yE yO x.length, ?_, ?_⟩
      · simp only [recursiveFuel]
        rw [if_neg (by omega)]
        rw [hyE, hyO]
      · rw [hx]
        exact (recCombineAux_spec (wlenOf inverse n) yE yO n (n / 2) le_rfl).2.1

/-! Scatter/gather bookkeeping for the distributed engine. -/

lemma chunked_length (L : ℕ) : ∀ P (y : List ℂ), (chunked L P y).length = P := by
  intro P
  induction P with
  | zero => intro y; rfl
  | succ P ih =>
    intro y
    show (y.take L :: chunked L P (y.drop L)).length = P + 1
    rw [List.length_cons, ih]

lemma chunked_chunk_length (L : ℕ) : ∀ P (y : List ℂ), y.length = P * L →
    ∀ c ∈ chunked L P y, c.length = L := by
  intro P
  induction P with
  | zero =>
    intro y _ c hc
    exact absurd hc (by simp [chunked])
  | succ P ih =>
    intro y hy c hc
    have hPL : (P + 1) * L = P * L + L := by ring
    rw [show chunked L (P + 1) y = y.take L :: chunked L P (y.drop L) from rfl] at hc
    rcases List.mem_cons.mp hc with h | h
    · rw [h, List.length_take, hy]
      omega
    · exact ih (y.drop L) (by rw [List.length_drop, hy]; omega) c h

lemma chunked_flatten (L : ℕ) : ∀ P (y : List ℂ), y.length = P * L →
    (chunked L P y).flatten = y := by
  intro P
  induction P with
  | zero =>
    intro y hy
    show ([] : List (List ℂ)).flatten = y
    rw [show (0 : ℕ) * L = 0 from by ring] at hy
    rw [List.eq_nil_of_length_eq_zero hy]
    rfl
  | succ P ih =>
    intro y hy
    have hPL : (P + 1) * L = P * L + L := by ring
    show (y.take L ++ (chunked L P (y.drop L)).flatten) = y
    rw [ih (y.drop L) (by rw [List.length_drop, hy]; omega)]
    exact List.take_append_drop L y

lemma flatten_length (L : ℕ) : ∀ (chunks : List (List ℂ)),
    (∀ c ∈ chunks, c.length = L) → chunks.flatten.length = chunks.length * L := by
  intro chunks
  induction chunks with
  | nil =>
    intro _
    simp
  | cons c rest ih =>
    intro hc
    rw [List.flatten_cons, List.length_append, List.length_cons,
        ih (fun d hd => hc d (List.mem_cons_of_mem c hd)), hc c (List.mem_cons_self c rest)]
    ring

lemma flatten_getD (L : ℕ) : ∀ (chunks : List (List ℂ)) (r i : ℕ),
    (∀ c ∈ chunks, c.length = L) → r < chunks.length → i < L →
    chunks.flatten.getD (r * L + i) 0 = (chunks.getD r []).getD i 0 := by
  intro chunks
  induction chunks with
  | nil =>
    intro r i _ hr _
    exact absurd hr (by simp)
  | cons c rest ih =>
    intro r i hc hr hi
    rw [List.flatten_cons]
    cases r with
    | zero =>
      rw [zero_mul, zero_add]
      rw [getD_append_left _ _ _ (by rw [hc c (List.mem_cons_self c rest)]; omega)]
      rfl
    | succ r =>
      have hcl : c.length = L := hc c (List.mem_cons_self c rest)
      have hexp : (r + 1) * L + i = c.length + (r * L + i) := by
        have h3 : (r + 1) * L = r * L + L := by ring
        omega
      rw [hexp, getD_append_right _ _ _ (by omega)]
      have hsub : c.length + (r * L + i) - c.length = r * L + i := by omega
      rw [hsub]
      rw [ih r i (fun d hd => hc d (List.mem_cons_of_mem c hd)) (by simpa using hr) hi]
      rfl

lemma getD_map_range_list (F : ℕ → List ℂ) (n p : ℕ) (h : p < n) :
    ((List.range n).map F).getD p [] = F p := by
  simp [List.getD_eq_getElem?_getD, List.getElem?_map, List.getElem?_range h]

/-! Bitwise facts about the hypercube partner computation, stated on the
base-2^(t+1) decomposition of a rank. -/

lemma testBit_decomp (a m t : ℕ) (hm : m < 2 ^ (t + 1)) (b : ℕ) :
    (a * 2 ^ (t + 1) + m).testBit b
      = if b < t + 1 then m.testBit b else a.testBit (b - (t + 1)) := by
  have h1 : a * 2 ^ (t + 1) + m = 2 ^ (t + 1) * a + m := by ring
  rw [h1, Nat.testBit_mul_pow_two_add a hm b]

lemma and_two_pow_decomp (a m t : ℕ) (hm : m < 2 ^ (t + 1)) :
    ((a * 2 ^ (t + 1) + m) &&& 2 ^ t = 0) ↔ m < 2 ^ t := by
  rw [Nat.and_two_pow]
  have hb : (a * 2 ^ (t + 1) + m).testBit t = m.testBit t := by
    rw [testBit_decomp a m t hm t, if_pos (by omega)]
  rw [hb]
  have hpos : (0 : ℕ) < 2 ^ t := Nat.pos_pow_of_pos t (by norm_num)
  constructor
  · intro h
    have hbit : m.testBit t = false := by
      cases hmt : m.testBit t
      · rfl
      · rw [hmt] at h
        simp only [Bool.toNat_true, one_mul] at h
        omega
    by_contra hge
    have hsplit : m = 2 ^ t + (m - 2 ^ t) := by omega
    have hlt : m - 2 ^ t < 2 ^ t := by
      have hp : (2 : ℕ) ^ (t + 1) = 2 ^ t + 2 ^ t := by rw [pow_succ]; ring
      omega
    rw [hsplit, testBit_pow_add t (m - 2 ^ t) t hlt, if_neg (by omega)] at hbit
    simp at hbit
  · intro h
    rw [testBit_false_of_lt m t t h le_rfl]
    simp

lemma xor_two_pow_add (a m t : ℕ) (hm : m < 2 ^ t) :
    (a * 2 ^ (t + 1) + m) ^^^ 2 ^ t = a * 2 ^ (t + 1) + (m + 2 ^ t) := by
  have hp : (2 : ℕ) ^ (t + 1) = 2 ^ t + 2 ^ t := by rw [pow_succ]; ring
  apply Nat.eq_of_testBit_eq
  intro b
  rw [Nat.testBit_xor]
  rw [testBit_decomp a m t (by omega) b]
  rw [testBit_decomp a (m + 2 ^ t) t (by omega) b]
  have hcm : m + 2 ^ t = 2 ^ t + m := by ring
  rw [Nat.testBit_two_pow]
  by_cases hbt : b < t + 1
  · rw [if_pos hbt, if_pos hbt, hcm, testBit_pow_add t m b hm]
    by_cases hb : b < t
    · rw [if_pos hb, decide_eq_false (by omega : ¬(t = b))]
      cases m.testBit b <;> rfl
    · have hbt2 : b = t := by omega
      subst hbt2
      rw [if_neg (by omega), decide_eq_true (rfl : b = b)]
      rw [testBit_false_of_lt m b b hm le_rfl]
      rfl
  · rw [if_neg hbt, if_neg hbt, decide_eq_false (by omega : ¬(t = b))]
    cases (a.testBit (b - (t + 1))) <;> rfl

lemma xor_two_pow_sub (a m t : ℕ) (hm1 : 2 ^ t ≤ m) (hm2 : m < 2 ^ (t + 1)) :
    (a * 2 ^ (t + 1) + m) ^^^ 2 ^ t = a * 2 ^ (t + 1) + (m - 2 ^ t) := by
  have hp : (2 : ℕ) ^ (t + 1) = 2 ^ t + 2 ^ t := by rw [pow_succ]; ring
  have hlt : m - 2 ^ t < 2 ^ t := by omega
  have hsplit : m = (m - 2 ^ t) + 2 ^ t := by omega
  have h1 := xor_two_pow_add a (m - 2 ^ t) t hlt
  have h2 : (a * 2 ^ (t + 1) + (m - 2 ^ t)) ^^^ 2 ^ t ^^^ 2 ^ t
      = a * 2 ^ (t + 1) + (m - 2 ^ t) := by
    rw [Nat.xor_assoc, Nat.xor_self, Nat.xor_zero]
  rw [h1] at h2
  have h3 : a * 2 ^ (t + 1) + (m - 2 ^ t + 2 ^ t) = a * 2 ^ (t + 1) + m := by omega
  rw [h3] at h2
  exact h2

/-! A stage that fits in local memory, run independently on every rank's
partition, acts on the concatenation exactly like a global iterative stage. -/

lemma map_stage_flatten (inverse : Bool) (L len : ℕ) (hpos : 0 < len)
    (h2 : len / 2 + len / 2 = len) (hdvd : len ∣ L) :
    ∀ (chunks : List (List ℂ)), (∀ c ∈ chunks, c.length = L) →
      (chunks.map (butterfly_stage inverse L len)).flatten
        = iterStage inverse len chunks.flatten := by
  intro chunks
  induction chunks with
  | nil =>
    intro _
    show ([] : List ℂ) = iterStage inverse len []
    unfold iterStage butterflyPass
    rw [show (([] : List ℂ)).length / len = 0 from by simp]
    rfl
  | cons c rest ih =>
    intro hc
    have hcl : c.length = L := hc c (List.mem_cons_self c rest)
    have hrl : len ∣ rest.flatten.length := by
      rw [flatten_length L rest (fun d hd => hc d (List.mem_cons_of_mem c hd))]
      exact dvd_trans hdvd (Dvd.intro rest.length (mul_comm L rest.length))
    rw [List.map_cons, List.flatten_cons, List.flatten_cons]
    rw [ih (fun d hd => hc d (List.mem_cons_of_mem c hd))]
    rw [butterfly_stage_eq_pass]
    have hL : butterflyPass (wlenOf inverse len) len L c = iterStage inverse len c := by
      rw [iterStage, hcl]
    rw [hL]
    rw [← iterStage_append inverse len c rest.flatten hpos h2 (by rw [hcl]; exact hdvd) hrl]

lemma parCrossStage_getD (inverse : Bool) (P L len : ℕ) (chunks : List (List ℂ))
    (rank i : ℕ) (hr : rank < P) (hi : i < L) :
    ((parCrossStage inverse P L len chunks).getD rank []).getD i 0
      = (if rank &&& ((len / 2) / L) = 0
         then (chunks.getD rank []).getD i 0
           + (chunks.getD (rank ^^^ ((len / 2) / L)) []).getD i 0
             * Complex.exp ((angleOf inverse len
                * (((rank % ((len / 2) / L)) * L + i : ℕ) : ℝ)) * Complex.I)
         else (chunks.getD (rank ^^^ ((len / 2) / L)) []).getD i 0
           - (chunks.getD rank []).getD i 0
             * Complex.exp ((angleOf inverse len
                * (((rank % ((len / 2) / L)) * L + i : ℕ) : ℝ)) * Complex.I)) := by
  unfold parCrossStage
  rw [getD_map_range_list _ P rank hr]
  rw [getD_map_range _ _ _ hi]

lemma parCrossStage_chunk_length (inverse : Bool) (P L len : ℕ)
    (chunks : List (List ℂ)) :
    ∀ c ∈ parCrossStage inverse P L len chunks, c.length = L := by
  intro c hc
  unfold parCrossStage at hc
  obtain ⟨rank, _, hfc⟩ := List.mem_map.mp hc
  rw [← hfc]
  simp

lemma parCrossStage_length (inverse : Bool) (P L len : ℕ) (chunks : List (List ℂ)) :
    (parCrossStage inverse P L len chunks).length = P := by
  unfold parCrossStage
  simp

/-- Cross-process stage correctness: the single pairwise hypercube exchange
with role-dependent `u + v*w` / `u - v*w` updates performs, on the
concatenation of the partitions, exactly the iterative engine's butterfly
stage of the same width. -/
lemma parCrossStage_flatten (inverse : Bool) (t e pp : ℕ) (L gs len P : ℕ)
    (hL : L = 2 ^ e) (hgs : gs = 2 ^ t) (hlen : len = 2 * gs * L) (hP : P = 2 ^ pp)
    (htp : t + 1 ≤ pp) (chunks : List (List ℂ))
    (hclen : chunks.length = P) (hc : ∀ c ∈ chunks, c.length = L) :
    (parCrossStage inverse P L len chunks).flatten
      = iterStage inverse len chunks.flatten := by
  have hLpos : 0 < L := by rw [hL]; exact Nat.pos_pow_of_pos e (by norm_num)
  have hgspos : 0 < gs := by rw [hgs]; exact Nat.pos_pow_of_pos t (by norm_num)
  have hx2 : len = 2 * (gs * L) := by rw [hlen]; ring
  have hlenpos : 0 < len := by
    have : 0 < gs * L := Nat.mul_pos hgspos hLpos
    omega
  have hh : len / 2 = gs * L := by omega
  have h2 : len / 2 + len / 2 = len := by omega
  have hgsL : (len / 2) / L = gs := by rw [hh]; exact Nat.mul_div_cancel gs hLpos
  have htwogs : 2 * gs = 2 ^ (t + 1) := by rw [hgs, pow_succ]; ring
  have hQdef : P = 2 * gs * 2 ^ (pp - (t + 1)) := by
    rw [htwogs, hP, ← pow_add]
    congr 1
    omega
  set Q := 2 ^ (pp - (t + 1)) with hQ
  have hQpos : 0 < Q := Nat.pos_pow_of_pos _ (by norm_num)
  have hflatc : chunks.flatten.length = P * L := by
    rw [flatten_length L chunks hc, hclen]
  have hdvd_len : len ∣ chunks.flatten.length := by
    rw [hflatc, hQdef, hlen]
    exact ⟨Q, by ring⟩
  have hcross_lens : ∀ c ∈ parCrossStage inverse P L len chunks, c.length = L :=
    parCrossStage_chunk_length inverse P L len chunks
  apply eq_of_getD
  · rw [flatten_length L _ hcross_lens, parCrossStage_length]
    rw [iterStage, butterflyPass_length, hflatc]
  · intro g hg
    rw [flatten_length L _ hcross_lens, parCrossStage_length] at hg
    obtain ⟨rank, i, hgri, hiL, hrb⟩ :=
      exists_block_decomp g L P hLpos (by rw [mul_comm] at hg; exact hg)
    have hrankP : rank < P := by
      have h3 : (rank + 1) * L ≤ P * L := by
        rw [mul_comm P L]
        exact hrb
      have h4 : rank + 1 ≤ P := Nat.le_of_mul_le_mul_right h3 hLpos
      omega
    -- decompose the rank in base 2 * gs
    set a := rank / (2 * gs) with ha
    set bb := rank % (2 * gs) with hbb
    have hrank : rank = 2 * gs * a + bb := (Nat.div_add_mod rank (2 * gs)).symm
    have hbb2 : bb < 2 * gs := Nat.mod_lt rank (by omega)
    have hrank2 : rank = a * 2 ^ (t + 1) + bb := by
      rw [hrank, htwogs]
      ring
    have haQ : a < Q := by
      have h5 : 2 * gs * a ≤ rank := by omega
      have h6 : rank < 2 * gs * Q := by rw [← hQdef]; exact hrankP
      by_contra hge
      have h7 : 2 * gs * Q ≤ 2 * gs * a := Nat.mul_le_mul_left (2 * gs) (by omega)
      omega
    -- index bookkeeping
    have m1 : a * len = 2 * (a * (gs * L)) := by rw [hlen]; ring
    have m3 : rank * L = 2 * (a * (gs * L)) + bb * L := by rw [hrank]; ring
    have hgeq2 : rank * L + i = a * len + (bb * L + i) := by omega
    have hRlen : bb * L + i < len := by
      have h6 : (bb + 1) * L ≤ 2 * gs * L := Nat.mul_le_mul_right L (by omega)
      have h7 : (bb + 1) * L = bb * L + L := by ring
      have h8 : 2 * gs * L = 2 * (gs * L) := by ring
      omega
    have hblock : (a + 1) * len ≤ chunks.flatten.length := by
      rw [hflatc]
      have h5 : (a + 1) * (2 * gs) ≤ Q * (2 * gs) := Nat.mul_le_mul_right (2 * gs) (by omega)
      have h6 : (a + 1) * len = (a + 1) * (2 * gs) * L := by rw [hlen]; ring
      have h7 : P * L = Q * (2 * gs) * L := by rw [hQdef]; ring
      rw [h6, h7]
      exact Nat.mul_le_mul_right L h5
    -- evaluate the left side
    rw [hgri]
    rw [flatten_getD L _ rank i hcross_lens (by rw [parCrossStage_length]; exact hrankP) hiL]
    rw [parCrossStage_getD inverse P L len chunks rank i hrankP hiL]
    rw [hgsL]
    have hand : (rank &&& gs = 0) ↔ bb < gs := by
      rw [hrank2, hgs]
      exact and_two_pow_decomp a bb t (by rw [← htwogs]; exact hbb2)
    -- evaluate the right side
    rw [iterStage]
    rw [hgeq2]
    rw [butterflyPass_getD (wlenOf inverse len) len chunks.flatten hlenpos h2 hdvd_len
      a (bb * L + i) hRlen hblock]
    rw [hh]
    by_cases hlow : bb < gs
    · rw [if_pos (hand.mpr hlow)]
      rw [if_pos (by
        have h9 : (bb + 1) * L ≤ gs * L := Nat.mul_le_mul_right L (by omega)
        have h10 : (bb + 1) * L = bb * L + L := by ring
        omega : bb * L + i < gs * L)]
      have hxor : rank ^^^ gs = rank + gs := by
        rw [hrank2, hgs]
        rw [xor_two_pow_add a bb t (by rw [← hgs]; exact hlow)]
        rw [← hgs, ← add_assoc, ← hrank2]
      have hmod : rank % gs = bb := by
        have h11 : rank = gs * (2 * a) + bb := by rw [hrank]; ring
        rw [h11, Nat.mul_add_mod, Nat.mod_eq_of_lt hlow]
      have hback1 : a * len + (bb * L + i) = rank * L + i := hgeq2.symm
      have hpos2 : a * len + (bb * L + i) + gs * L = (rank + gs) * L + i := by
        have h12 : (rank + gs) * L = rank * L + gs * L := by ring
        omega
      rw [hpos2, hback1]
      rw [flatten_getD L chunks rank i hc (by rw [hclen]; exact hrankP) hiL]
      have hrgsP : rank + gs < P := by
        have h13 : rank + gs = 2 * gs * a + (bb + gs) := by omega
        have h14 : bb + gs < 2 * gs := by omega
        have h15 : 2 * gs * a + 2 * gs ≤ 2 * gs * Q := by
          have := Nat.mul_le_mul_left (2 * gs) (by omega : a + 1 ≤ Q)
          have he : 2 * gs * (a + 1) = 2 * gs * a + 2 * gs := by ring
          omega
        rw [← hQdef] at h15
        omega
      rw [flatten_getD L chunks (rank + gs) i hc (by rw [hclen]; exact hrgsP) hiL]
      rw [hxor, hmod]
      rw [exp_angle_mul]
      ring
    · rw [if_neg (by rw [hand]; omega)]
      rw [if_neg (by
        have h9 : gs * L ≤ bb * L := Nat.mul_le_mul_right L (by omega)
        omega : ¬(bb * L + i < gs * L))]
      have hxor : rank ^^^ gs = rank - gs := by
        rw [hrank2, hgs]
        rw [xor_two_pow_sub a bb t (by rw [← hgs]; omega) (by rw [← htwogs]; exact hbb2)]
        rw [← hgs, ← htwogs]
        omega
      have hmod : rank % gs = bb - gs := by
        have h11 : rank = gs * (2 * a + 1) + (bb - gs) := by
          have h12 : gs * (2 * a + 1) = 2 * gs * a + gs := by ring
          omega
        rw [h11, Nat.mul_add_mod, Nat.mod_eq_of_lt (by omega)]
      have m2 : (rank - gs) * L = rank * L - gs * L := Nat.sub_mul rank gs L
      have m5 : gs * L ≤ bb * L := Nat.mul_le_mul_right L (by omega)
      have m6 : (bb - gs) * L = bb * L - gs * L := Nat.sub_mul bb gs L
      have hpos1 : a * len + (bb * L + i) - gs * L = (rank - gs) * L + i := by omega
      have hback0 : a * len + (bb * L + i) = rank * L + i := hgeq2.symm
      have hexp : bb * L + i - gs * L = (bb - gs) * L + i := by omega
      rw [hpos1, hback0, hexp]
      rw [flatten_getD L chunks rank i hc (by rw [hclen]; exact hrankP) hiL]
      rw [flatten_getD L chunks (rank - gs) i hc (by rw [hclen]; omega) hiL]
      rw [hxor, hmod]
      rw [exp_angle_mul]
      ring

/-- Lockstep simulation of the distributed stage loop: after any suffix of
the loop, concatenating the per-rank partitions gives exactly the buffer the
iterative engine's stage loop would hold. -/
lemma parLoop_flatten (inverse : Bool) (p k : ℕ) (hpk : p ≤ k) (s : ℕ) (hs : 1 ≤ s)
    (chunks : List (List ℂ)) (hclen : chunks.length = 2 ^ p)
    (hcc : ∀ c ∈ chunks, c.length = 2 ^ (k - p)) :
    (lenLoop (parStageStep inverse (2 ^ p) (2 ^ (k - p))) (2 ^ k) (2 ^ s) chunks).flatten
      = lenLoop (iterStage inverse) (2 ^ k) (2 ^ s) chunks.flatten := by
  by_cases hsk : (2 : ℕ) ^ s ≤ 2 ^ k
  · obtain ⟨u, rfl⟩ : ∃ u, s = u + 1 := ⟨s - 1, by omega⟩
    have hpos : (0 : ℕ) < 2 ^ (u + 1) := Nat.pos_pow_of_pos _ (by norm_num)
    have hhalf : (2 : ℕ) ^ (u + 1) / 2 + 2 ^ (u + 1) / 2 = 2 ^ (u + 1) := by
      have he : (2 : ℕ) ^ (u + 1) = 2 ^ u * 2 := pow_succ 2 u
      have hd : (2 : ℕ) ^ (u + 1) / 2 = 2 ^ u := by omega
      omega
    rw [lenLoop_step _ _ _ _ Nat.one_le_two_pow hsk,
        lenLoop_step _ _ _ _ Nat.one_le_two_pow hsk]
    have hstep : (parStageStep inverse (2 ^ p) (2 ^ (k - p)) (2 ^ (u + 1)) chunks).flatten
        = iterStage inverse (2 ^ (u + 1)) chunks.flatten := by
      unfold parStageStep
      by_cases hloc : (2 : ℕ) ^ (u + 1) ≤ 2 ^ (k - p)
      · rw [if_pos hloc]
        have hdvd : (2 : ℕ) ^ (u + 1) ∣ 2 ^ (k - p) :=
          pow_dvd_pow 2 ((Nat.pow_le_pow_iff_right (by norm_num)).mp hloc)
        exact map_stage_flatten inverse (2 ^ (k - p)) (2 ^ (u + 1)) hpos hhalf hdvd
          chunks hcc
      · rw [if_neg hloc]
        have hlt : (2 : ℕ) ^ (k - p) < 2 ^ (u + 1) := by omega
        have hkp : k - p < u + 1 := by
          by_contra hge
          have h9 : (2 : ℕ) ^ (u + 1) ≤ 2 ^ (k - p) :=
            Nat.pow_le_pow_right (by norm_num) (by omega)
          omega
        have hsu : u + 1 ≤ k := (Nat.pow_le_pow_iff_right (by norm_num)).mp hsk
        refine parCrossStage_flatten inverse (u - (k - p)) (k - p) p
          (2 ^ (k - p)) (2 ^ (u - (k - p))) (2 ^ (u + 1)) (2 ^ p)
          rfl rfl ?_ rfl (by omega) chunks hclen hcc
        have h1 : (2 : ℕ) * 2 ^ (u - (k - p)) * 2 ^ (k - p)
            = 2 ^ (1 + (u - (k - p)) + (k - p)) := by
          rw [pow_add, pow_add, pow_one]
        rw [h1]
        congr 1
        omega
    have hnew_len : (parStageStep inverse (2 ^ p) (2 ^ (k - p)) (2 ^ (u + 1)) chunks).length
        = 2 ^ p := by
      unfold parStageStep
      by_cases hloc : (2 : ℕ) ^ (u + 1) ≤ 2 ^ (k - p)
      · rw [if_pos hloc, List.length_map, hclen]
      · rw [if_neg hloc, parCrossStage_length]
    have hnew_cc : ∀ c ∈ parStageStep inverse (2 ^ p) (2 ^ (k - p)) (2 ^ (u + 1)) chunks,
        c.length = 2 ^ (k - p) := by
      unfold parStageStep
      by_cases hloc : (2 : ℕ) ^ (u + 1) ≤ 2 ^ (k - p)
      · rw [if_pos hloc]
        intro c hcmem
        obtain ⟨c0, hc0, hfc⟩ := List.mem_map.mp hcmem
        rw [← hfc, butterfly_stage_eq_pass, butterflyPass_length]
        exact hcc c0 hc0
      · rw [if_neg hloc]
        exact parCrossStage_chunk_length _ _ _ _ _
    have hmul : (2 : ℕ) ^ (u + 1) * 2 = 2 ^ (u + 2) := (pow_succ 2 (u + 1)).symm
    rw [hmul]
    rw [parLoop_flatten inverse p k hpk (u + 2) (by omega) _ hnew_len hnew_cc]
    rw [hstep]
  · rw [lenLoop_stop _ _ _ _ (by omega), lenLoop_stop _ _ _ _ (by omega)]
termination_by k + 1 - s
decreasing_by
  have := (Nat.pow_le_pow_iff_right (by norm_num : (1:ℕ) < 2)).mp hsk
  omega

/-! Engine-level correctness of the parallel methods: with `P = 2^p` ranks
dividing a power-of-two signal length, the distributed pipeline produces the
same DFT as the other engines. -/

set_option maxHeartbeats 1000000 in
lemma parallel_executeFFT_dft (inverse : Bool) (p k tv : ℕ) (hpk : p ≤ k)
    (x : List ℂ) (o : Option (List ℂ)) (d : ℕ) (hx : x.length = 2 ^ k) :
    Parallel.executeFFT inverse (2 ^ p) tv ⟨x, o, d⟩
      = ⟨x, some (if inverse then (dft true x).map (fun z => z / (x.length : ℂ))
                  else dft false x), tv⟩ := by
  have hclog : Nat.clog 2 x.length = k := by
    rw [hx]
    exact Nat.clog_pow 2 k (by norm_num)
  have hdiv : x.length / 2 ^ p = 2 ^ (k - p) := by
    rw [hx, Nat.pow_div hpk (by norm_num)]
  have hmulPL : (2 : ℕ) ^ p * 2 ^ (k - p) = 2 ^ k := by
    rw [← pow_add]
    congr 1
    omega
  have hbp : bitrevPar (Nat.clog 2 x.length) = bitrevIter k := by
    rw [hclog]
    exact funext (bitrevPar_eq_bitrevIter k)
  have hdropAny : ∀ l : List ℂ, l.length = x.length →
      l.drop (2 ^ p * (x.length / 2 ^ p)) = [] := by
    intro l hl
    apply List.drop_eq_nil_of_le
    rw [hl, hdiv, hmulPL, hx]
  have hloop : (lenLoop (parStageStep inverse (2 ^ p) (x.length / 2 ^ p)) x.length 2
        (chunked (x.length / 2 ^ p) (2 ^ p)
          (permFold (bitrevPar (Nat.clog 2 x.length)) x
            (List.replicate x.length (0 : ℂ))))).flatten
      = dft inverse x := by
    rw [hbp, hdiv, hx]
    have hpermlen : (permFold (bitrevIter k) x
        (List.replicate (2 ^ k) (0 : ℂ))).length = 2 ^ k := by
      rw [permFold_length, List.length_replicate]
    have hpermlen2 : (permFold (bitrevIter k) x
        (List.replicate (2 ^ k) (0 : ℂ))).length = 2 ^ p * 2 ^ (k - p) := by
      rw [hpermlen, hmulPL]
    have h1 := parLoop_flatten inverse p k hpk 1 (le_refl 1)
      (chunked (2 ^ (k - p)) (2 ^ p)
        (permFold (bitrevIter k) x (List.replicate (2 ^ k) (0 : ℂ))))
      (chunked_length _ _ _)
      (chunked_chunk_length _ _ _ hpermlen2)
    rw [pow_one] at h1
    rw [h1, chunked_flatten _ _ _ hpermlen2]
    exact iter_loop_dft inverse k x _ hx hpermlen
      (fun j hj => permFold_bitrev_getD k x _ hx (by rw [List.length_replicate]) j hj)
  cases o with
  | none =>
    simp only [Parallel.executeFFT]
    rw [hdropAny (List.replicate x.length (0 : ℂ)) (by rw [List.length_replicate]),
        List.append_nil, hloop]
    cases inverse
    · rw [if_neg (by decide : ¬(false = true)), if_neg (by decide : ¬(false = true))]
    · rw [if_pos (by decide : true = true), if_pos (by decide : true = true)]
  | some l =>
    simp only [Parallel.executeFFT]
    rw [hdropAny (resizeList l x.length) (by rw [length_resizeList]),
        List.append_nil, hloop]
    cases inverse
    · rw [if_neg (by decide : ¬(false = true)), if_neg (by decide : ¬(false = true))]
    · rw [if_pos (by decide : true = true), if_pos (by decide : true = true)]

lemma parallel_compute_ok (p k tv : ℕ) (hpk : p ≤ k) (x : List ℂ)
    (o : Option (List ℂ)) (d : ℕ) (hx : x.length = 2 ^ k) :
    Parallel.compute (2 ^ p) tv ⟨x, o, d⟩ = ⟨x, some (dft false x), tv⟩ := by
  show Parallel.executeFFT false (2 ^ p) tv ⟨x, o, d⟩ = _
  rw [parallel_executeFFT_dft false p k tv hpk x o d hx]
  rw [if_neg (by decide : ¬(false = true))]

lemma parallel_reverse_ok (p k tv : ℕ) (hpk : p ≤ k) (x : List ℂ)
    (o : Option (List ℂ)) (d : ℕ) (hx : x.length = 2 ^ k) :
    Parallel.reverseCompute (2 ^ p) tv ⟨x, o, d⟩
      = ⟨x, some ((dft true x).map (fun z => z / (x.length : ℂ))), tv⟩ := by
  show Parallel.executeFFT true (2 ^ p) tv ⟨x, o, d⟩ = _
  rw [parallel_executeFFT_dft true p k tv hpk x o d hx]
  rw [if_pos (by decide : true = true)]

/-! Engine-level results for the recursive methods on power-of-two inputs. -/

lemma recursive_compute_ok (k fuel tv : ℕ) (x : List ℂ) (o : Option (List ℂ)) (d : ℕ)
    (hx : x.length = 2 ^ k) (hfuel : 2 ^ k ≤ fuel) :
    Recursive.compute fuel tv ⟨x, o, d⟩ = some ⟨x, some (dft false x), tv⟩ := by
  unfold Recursive.compute
  rw [show (⟨x, o, d⟩ : FourierState).input = x from rfl,
      recursiveFuel_dft false k fuel x hx hfuel]
  rfl

lemma recursive_reverse_ok (k fuel tv : ℕ) (x : List ℂ) (o : Option (List ℂ)) (d : ℕ)
    (hx : x.length = 2 ^ k) (hfuel : 2 ^ k ≤ fuel) :
    Recursive.reverseCompute fuel tv ⟨x, o, d⟩
      = some ⟨x, some ((dft true x).map (fun z => z / (x.length : ℂ))), tv⟩ := by
  unfold Recursive.reverseCompute
  rw [show (⟨x, o, d⟩ : FourierState).input = x from rfl,
      recursiveFuel_dft true k fuel x hx hfuel]
  rw [Option.map_some']
  rw [dft_length]

/-! Behaviour of the engines on the empty signal. -/

lemma iterative_compute_nil (tv d : ℕ) (o : Option (List ℂ)) :
    Iterative.compute tv ⟨[], o, d⟩ = .ok ⟨[], o, d⟩ := rfl

lemma iterative_reverse_nil (tv d : ℕ) (o : Option (List ℂ)) :
    Iterative.reverseCompute tv ⟨[], o, d⟩ = .ok ⟨[], o, d⟩ := rfl

lemma recursive_compute_nil (fuel tv d : ℕ) (o : Option (List ℂ)) :
    Recursive.compute fuel tv ⟨[], o, d⟩ = none := by
  unfold Recursive.compute
  rw [show (⟨[], o, d⟩ : FourierState).input = ([] : List ℂ) from rfl,
      recursiveFuel_nil false fuel]
  rfl

lemma recursive_reverse_nil (fuel tv d : ℕ) (o : Option (List ℂ)) :
    Recursive.reverseCompute fuel tv ⟨[], o, d⟩ = none := by
  unfold Recursive.reverseCompute
  rw [show (⟨[], o, d⟩ : FourierState).input = ([] : List ℂ) from rfl,
      recursiveFuel_nil true fuel]
  rfl

lemma parallel_executeFFT_nil (inverse : Bool) (P tv d : ℕ) (o : Option (List ℂ)) :
    Parallel.executeFFT inverse P tv ⟨[], o, d⟩ = ⟨[], some [], tv⟩ := by
  have hperm : permFold (bitrevPar (Nat.clog 2 (0 : ℕ))) ([] : List ℂ)
      ([] : List ℂ) = [] := rfl
  have hloop : lenLoop (parStageStep inverse P (0 / P)) 0 2
      (chunked (0 / P) P ([] : List ℂ)) = chunked (0 / P) P ([] : List ℂ) :=
    lenLoop_stop _ _ _ _ (by norm_num)
  have hflat : (chunked (0 / P) P ([] : List ℂ)).flatten = [] :=
    chunked_flatten (0 / P) P [] (by simp)
  cases o with
  | none =>
    simp only [Parallel.executeFFT, List.length_nil, List.replicate_zero]
    rw [hperm, hloop, hflat]
    simp only [List.drop_nil, List.append_nil, List.nil_append, List.map_nil]
    cases inverse <;> rfl
  | some l =>
    simp only [Parallel.executeFFT, List.length_nil, List.replicate_zero]
    rw [hperm, hloop, hflat]
    have hres : resizeList l 0 = [] := List.length_eq_zero.mp (length_resizeList l 0)
    rw [hres]
    simp only [List.drop_nil, List.append_nil, List.nil_append, List.map_nil]
    cases inverse <;> rfl

/-! The iterative size check rejects every nonzero non-power-of-two length. -/

lemma iterative_rejects (tv : ℕ) (s : FourierState) (h0 : s.input.length ≠ 0)
    (hnp : ¬∃ k, s.input.length = 2 ^ k) :
    Iterative.compute tv s = .error "Input size must be a power of 2" ∧
    Iterative.reverseCompute tv s = .error "Input size must be a power of 2" := by
  have hand : s.input.length &&& (s.input.length - 1) ≠ 0 := by
    intro h
    exact hnp ((pow_two_iff_and_pred _ h0).mp h)
  constructor
  · unfold Iterative.compute
    rw [if_neg h0, if_pos hand]
  · unfold Iterative.reverseCompute
    rw [if_neg h0, if_pos hand]

lemma five_not_pow_two : ¬∃ k, (5 : ℕ) = 2 ^ k := by
  intro he
  exact absurd ((pow_two_iff_and_pred 5 (by norm_num)).mpr he) (by decide)

/-! The claims. -/

/-- C1: for every complex signal whose length is a power of two, feeding the
output of compute back into reverseCompute returns the original signal
exactly (in the exact-arithmetic model), for the iterative engine, the
recursive engine (with enough fuel for its recursion to finish) and the
parallel engine (with any power-of-two process count dividing the length). -/
theorem c1_round_trip (k p fuel tv1 tv2 d1 d2 : ℕ) (x : List ℂ)
    (o1 o2 : Option (List ℂ)) (hx : x.length = 2 ^ k) (hfuel : 2 ^ k ≤ fuel)
    (hpk : p ≤ k) :
    ∃ y, (Iterative.compute tv1 ⟨x, o1, d1⟩ = .ok ⟨x, some y, tv1⟩ ∧
        Iterative.reverseCompute tv2 ⟨y, o2, d2⟩ = .ok ⟨y, some x, tv2⟩) ∧
      (Recursive.compute fuel tv1 ⟨x, o1, d1⟩ = some ⟨x, some y, tv1⟩ ∧
        Recursive.reverseCompute fuel tv2 ⟨y, o2, d2⟩ = some ⟨y, some x, tv2⟩) ∧
      (Parallel.compute (2 ^ p) tv1 ⟨x, o1, d1⟩ = ⟨x, some y, tv1⟩ ∧
        Parallel.reverseCompute (2 ^ p) tv2 ⟨y, o2, d2⟩ = ⟨y, some x, tv2⟩) := by
  have hy : (dft false x).length = 2 ^ k := by rw [dft_length, hx]
  have hpos : 0 < x.length := by
    rw [hx]
    exact Nat.pos_pow_of_pos k (by norm_num)
  have hrt : (dft true (dft false x)).map
      (fun z => z / (((dft false x).length : ℕ) : ℂ)) = x := by
    rw [dft_length]
    exact dft_roundtrip x hpos
  refine ⟨dft false x, ⟨iterative_compute_ok k tv1 x o1 d1 hx, ?_⟩,
    ⟨recursive_compute_ok k fuel tv1 x o1 d1 hx hfuel, ?_⟩,
    ⟨parallel_compute_ok p k tv1 hpk x o1 d1 hx, ?_⟩⟩
  · rw [iterative_reverse_ok k tv2 (dft false x) o2 d2 hy, hrt]
  · rw [recursive_reverse_ok k fuel tv2 (dft false x) o2 d2 hy hfuel, hrt]
  · rw [parallel_reverse_ok p k tv2 hpk (dft false x) o2 d2 hy, hrt]

/-- C1 witness: the round trip at the length-one signal [1] with one rank. -/
theorem c1_round_trip_witness :
    (([(1 : ℂ)].length = 2 ^ 0) ∧ (2 ^ 0 ≤ 1) ∧ (0 ≤ 0)) ∧
    (∃ y, (Iterative.compute 5 ⟨[(1 : ℂ)], none, 0⟩ = .ok ⟨[(1 : ℂ)], some y, 5⟩ ∧
        Iterative.reverseCompute 6 ⟨y, none, 0⟩ = .ok ⟨y, some [(1 : ℂ)], 6⟩) ∧
      (Recursive.compute 1 5 ⟨[(1 : ℂ)], none, 0⟩ = some ⟨[(1 : ℂ)], some y, 5⟩ ∧
        Recursive.reverseCompute 1 6 ⟨y, none, 0⟩ = some ⟨y, some [(1 : ℂ)], 6⟩) ∧
      (Parallel.compute (2 ^ 0) 5 ⟨[(1 : ℂ)], none, 0⟩ = ⟨[(1 : ℂ)], some y, 5⟩ ∧
        Parallel.reverseCompute (2 ^ 0) 6 ⟨y, none, 0⟩ = ⟨y, some [(1 : ℂ)], 6⟩)) :=
  ⟨⟨rfl, by norm_num, by norm_num⟩,
   c1_round_trip 0 0 1 5 6 0 0 [(1 : ℂ)] none none rfl (by norm_num) (by norm_num)⟩

/-- C2: for every input of power-of-two length, the three engines' forward
computes produce one and the same output vector (the DFT of the input), for
any power-of-two process count dividing the length. -/
theorem c2_cross_engine (k p fuel tv : ℕ) (x : List ℂ) (o : Option (List ℂ))
    (d : ℕ) (hx : x.length = 2 ^ k) (hfuel : 2 ^ k ≤ fuel) (hpk : p ≤ k) :
    ∃ y, Iterative.compute tv ⟨x, o, d⟩ = .ok ⟨x, some y, tv⟩ ∧
      Recursive.compute fuel tv ⟨x, o, d⟩ = some ⟨x, some y, tv⟩ ∧
      Parallel.compute (2 ^ p) tv ⟨x, o, d⟩ = ⟨x, some y, tv⟩ :=
  ⟨dft false x, iterative_compute_ok k tv x o d hx,
    recursive_compute_ok k fuel tv x o d hx hfuel,
    parallel_compute_ok p k tv hpk x o d hx⟩

/-- C2 witness: the three engines agree on [1, 0] with two ranks. -/
theorem c2_cross_engine_witness :
    (([(1 : ℂ), 0].length = 2 ^ 1) ∧ (2 ^ 1 ≤ 2) ∧ (1 ≤ 1)) ∧
    (∃ y, Iterative.compute 4 ⟨[(1 : ℂ), 0], none, 0⟩ = .ok ⟨[(1 : ℂ), 0], some y, 4⟩ ∧
      Recursive.compute 2 4 ⟨[(1 : ℂ), 0], none, 0⟩ = some ⟨[(1 : ℂ), 0], some y, 4⟩ ∧
      Parallel.compute (2 ^ 1) 4 ⟨[(1 : ℂ), 0], none, 0⟩ = ⟨[(1 : ℂ), 0], some y, 4⟩) :=
  ⟨⟨rfl, by norm_num, by norm_num⟩,
   c2_cross_engine 1 1 2 4 [(1 : ℂ), 0] none 0 rfl (by norm_num) (by norm_num)⟩

/-- C3: in the distributed engine, a stage whose butterfly width exceeds the
local partition size — each rank exchanging its partition with
partner = rank XOR group_size and applying u + v*w or u - v*w according to
its group_size bit, with twiddle exponent (rank % group_size)*local_n + i —
produces, once the partitions are concatenated in rank order, exactly the
buffer the iterative engine's sequential stage of the same width produces on
the same global data. -/
theorem c3_cross_stage_agrees (inverse : Bool) (k p u : ℕ)
    (hup : k - p ≤ u) (huk : u + 1 ≤ k) (chunks : List (List ℂ))
    (hclen : chunks.length = 2 ^ p) (hcc : ∀ c ∈ chunks, c.length = 2 ^ (k - p)) :
    (parCrossStage inverse (2 ^ p) (2 ^ (k - p)) (2 ^ (u + 1)) chunks).flatten
      = iterStage inverse (2 ^ (u + 1)) chunks.flatten := by
  refine parCrossStage_flatten inverse (u - (k - p)) (k - p) p
    (2 ^ (k - p)) (2 ^ (u - (k - p))) (2 ^ (u + 1)) (2 ^ p)
    rfl rfl ?_ rfl (by omega) chunks hclen hcc
  have h1 : (2 : ℕ) * 2 ^ (u - (k - p)) * 2 ^ (k - p)
      = 2 ^ (1 + (u - (k - p)) + (k - p)) := by
    rw [pow_add, pow_add, pow_one]
  rw [h1]
  congr 1
  omega

/-- C3 witness: the width-2 cross stage on two single-element partitions. -/
theorem c3_cross_stage_witness :
    ((1 - 1 ≤ 0) ∧ (0 + 1 ≤ 1) ∧
      (([[(1 : ℂ)], [0]] : List (List ℂ)).length = 2 ^ 1) ∧
      (∀ c ∈ ([[(1 : ℂ)], [0]] : List (List ℂ)), c.length = 2 ^ (1 - 1))) ∧
    (parCrossStage false (2 ^ 1) (2 ^ (1 - 1)) (2 ^ (0 + 1)) [[(1 : ℂ)], [0]]).flatten
      = iterStage false (2 ^ (0 + 1)) ([[(1 : ℂ)], [0]] : List (List ℂ)).flatten :=
  ⟨⟨by norm_num, by norm_num, rfl, by
      intro c hc
      rcases List.mem_cons.mp hc with h | hc2
      · subst h
        rfl
      · rcases List.mem_cons.mp hc2 with h | hc3
        · subst h
          rfl
        · exact absurd hc3 (List.not_mem_nil c)⟩,
   c3_cross_stage_agrees false 1 1 0 (by norm_num) (by norm_num) [[(1 : ℂ)], [0]] rfl
     (by
      intro c hc
      rcases List.mem_cons.mp hc with h | hc2
      · subst h
        rfl
      · rcases List.mem_cons.mp hc2 with h | hc3
        · subst h
          rfl
        · exact absurd hc3 (List.not_mem_nil c))⟩

/-- C4: amended — for every loaded input of positive power-of-two length the
three engines' compute succeeds, the output has the input's length and the
duration statistic is set by the call; at length 0 only the parallel engine
behaves this way (the iterative engine returns before starting its timer and
touching the output, the recursive engine does not terminate). -/
theorem c4_compute_post (k p fuel tv : ℕ) (x : List ℂ) (o : Option (List ℂ))
    (d : ℕ) (hx : x.length = 2 ^ k) (hfuel : 2 ^ k ≤ fuel) (hpk : p ≤ k) :
    (∃ y, Iterative.compute tv ⟨x, o, d⟩ = .ok ⟨x, some y, tv⟩ ∧
        y.length = x.length) ∧
    (∃ y, Recursive.compute fuel tv ⟨x, o, d⟩ = some ⟨x, some y, tv⟩ ∧
        y.length = x.length) ∧
    (∃ y, Parallel.compute (2 ^ p) tv ⟨x, o, d⟩ = ⟨x, some y, tv⟩ ∧
        y.length = x.length) :=
  ⟨⟨dft false x, iterative_compute_ok k tv x o d hx, dft_length false x⟩,
   ⟨dft false x, recursive_compute_ok k fuel tv x o d hx hfuel, dft_length false x⟩,
   ⟨dft false x, parallel_compute_ok p k tv hpk x o d hx, dft_length false x⟩⟩

/-- C4 witness: the postconditions at the length-two signal [2, 0]. -/
theorem c4_compute_post_witness :
    (([(2 : ℂ), 0].length = 2 ^ 1) ∧ (2 ^ 1 ≤ 2) ∧ (0 ≤ 1)) ∧
    ((∃ y, Iterative.compute 9 ⟨[(2 : ℂ), 0], none, 0⟩
          = .ok ⟨[(2 : ℂ), 0], some y, 9⟩ ∧ y.length = [(2 : ℂ), 0].length) ∧
     (∃ y, Recursive.compute 2 9 ⟨[(2 : ℂ), 0], none, 0⟩
          = some ⟨[(2 : ℂ), 0], some y, 9⟩ ∧ y.length = [(2 : ℂ), 0].length) ∧
     (∃ y, Parallel.compute (2 ^ 0) 9 ⟨[(2 : ℂ), 0], none, 0⟩
          = ⟨[(2 : ℂ), 0], some y, 9⟩ ∧ y.length = [(2 : ℂ), 0].length)) :=
  ⟨⟨rfl, by norm_num, by norm_num⟩,
   c4_compute_post 1 0 2 9 [(2 : ℂ), 0] none 0 rfl (by norm_num) (by norm_num)⟩

/-- C4 fails at length 0 as originally stated: the iterative engine returns
before its timer runs and before any output is allocated (the duration stays
0 instead of the call's reading 5 and the output stays absent), and the
recursive engine's recursion never terminates on the empty vector. -/
theorem c4_empty_counterexample :
    Iterative.compute 5 ⟨[], none, 0⟩ = .ok ⟨[], none, 0⟩ ∧
    Recursive.compute 100 5 ⟨[], none, 0⟩ = none :=
  ⟨iterative_compute_nil 5 0 none, recursive_compute_nil 100 5 0 none⟩

/-- C5: amended — the iterative engine rejects every nonzero input length
that is not a power of two, in compute and reverseCompute alike, with the
descriptive invalid-size error; the recursive engine has no such check. -/
theorem c5_invalid_size_rejection (tv : ℕ) (s : FourierState)
    (h0 : s.input.length ≠ 0) (hnp : ¬∃ k, s.input.length = 2 ^ k) :
    Iterative.compute tv s = .error "Input size must be a power of 2" ∧
    Iterative.reverseCompute tv s = .error "Input size must be a power of 2" :=
  iterative_rejects tv s h0 hnp

/-- C5 witness: the iterative engine rejects the length-5 all-ones signal. -/
theorem c5_invalid_size_witness :
    ((([(1 : ℂ), 1, 1, 1, 1] : List ℂ).length ≠ 0) ∧
      (¬∃ k, ([(1 : ℂ), 1, 1, 1, 1] : List ℂ).length = 2 ^ k)) ∧
    (Iterative.compute 3 ⟨[(1 : ℂ), 1, 1, 1, 1], none, 0⟩
        = .error "Input size must be a power of 2" ∧
      Iterative.reverseCompute 3 ⟨[(1 : ℂ), 1, 1, 1, 1], none, 0⟩
        = .error "Input size must be a power of 2") :=
  ⟨⟨by norm_num, by simpa using five_not_pow_two⟩,
   c5_invalid_size_rejection 3 ⟨[(1 : ℂ), 1, 1, 1, 1], none, 0⟩ (by norm_num)
     (by simpa using five_not_pow_two)⟩

/-- C5 is false for the recursive engine: on a length-5 signal its compute
performs no size check and produces an output instead of an error. -/
theorem c5_recursive_counterexample :
    (Recursive.compute 8 0 ⟨[(1 : ℂ), 1, 1, 1, 1], none, 0⟩).isSome = true := by
  obtain ⟨y, hy, -⟩ := recursiveFuel_terminates false 5 8 [(1 : ℂ), 1, 1, 1, 1]
    rfl (by norm_num) (by norm_num)
  unfold Recursive.compute
  rw [show (⟨[(1 : ℂ), 1, 1, 1, 1], none, 0⟩ : FourierState).input
      = [(1 : ℂ), 1, 1, 1, 1] from rfl, hy]
  rfl

/-- C6: amended — on the empty signal the iterative methods return the state
unchanged (no error, but also no output allocation or duration update), the
parallel methods succeed with an empty output and an updated duration, and
the recursive methods never terminate (the empty-vector recursion reaches no
base case, modelled as fuel exhaustion at every fuel). -/
theorem c6_empty_input (tv fuel P d : ℕ) (o : Option (List ℂ)) :
    Iterative.compute tv ⟨[], o, d⟩ = .ok ⟨[], o, d⟩ ∧
    Iterative.reverseCompute tv ⟨[], o, d⟩ = .ok ⟨[], o, d⟩ ∧
    Parallel.compute P tv ⟨[], o, d⟩ = ⟨[], some [], tv⟩ ∧
    Parallel.reverseCompute P tv ⟨[], o, d⟩ = ⟨[], some [], tv⟩ ∧
    Recursive.compute fuel tv ⟨[], o, d⟩ = none ∧
    Recursive.reverseCompute fuel tv ⟨[], o, d⟩ = none :=
  ⟨iterative_compute_nil tv d o, iterative_reverse_nil tv d o,
   parallel_executeFFT_nil false P tv d o, parallel_executeFFT_nil true P tv d o,
   recursive_compute_nil fuel tv d o, recursive_reverse_nil fuel tv d o⟩

/-- C6 is false for the recursive engine as originally stated: on the empty
input its compute and reverseCompute do not terminate at all (here at fuel
1000), rather than succeed with an empty output. -/
theorem c6_recursive_counterexample :
    Recursive.compute 1000 7 ⟨[], some [], 3⟩ = none ∧
    Recursive.reverseCompute 1000 7 ⟨[], some [], 3⟩ = none :=
  ⟨recursive_compute_nil 1000 7 3 (some []), recursive_reverse_nil 1000 7 3 (some [])⟩

/-- C7: for every power-of-two length, the forward transform of the all-ones
signal is the spike [N, 0, ..., 0], for the iterative, recursive and
parallel engines. -/
theorem c7_all_ones (k p fuel tv d : ℕ) (o : Option (List ℂ))
    (hfuel : 2 ^ k ≤ fuel) (hpk : p ≤ k) :
    Iterative.compute tv ⟨List.replicate (2 ^ k) 1, o, d⟩
      = .ok ⟨List.replicate (2 ^ k) 1,
             some (((2 ^ k : ℕ) : ℂ) :: List.replicate (2 ^ k - 1) 0), tv⟩ ∧
    Recursive.compute fuel tv ⟨List.replicate (2 ^ k) 1, o, d⟩
      = some ⟨List.replicate (2 ^ k) 1,
              some (((2 ^ k : ℕ) : ℂ) :: List.replicate (2 ^ k - 1) 0), tv⟩ ∧
    Parallel.compute (2 ^ p) tv ⟨List.replicate (2 ^ k) 1, o, d⟩
      = ⟨List.replicate (2 ^ k) 1,
         some (((2 ^ k : ℕ) : ℂ) :: List.replicate (2 ^ k - 1) 0), tv⟩ := by
  have hlen : (List.replicate (2 ^ k) (1 : ℂ)).length = 2 ^ k := by simp
  have hones := dft_ones (2 ^ k) (Nat.pos_pow_of_pos k (by norm_num))
  refine ⟨?_, ?_, ?_⟩
  · rw [iterative_compute_ok k tv _ o d hlen, hones]
  · rw [recursive_compute_ok k fuel tv _ o d hlen hfuel, hones]
  · rw [parallel_compute_ok p k tv hpk _ o d hlen, hones]

/-- C7 witness: the all-ones signal of length two maps to [2, 0]. -/
theorem c7_all_ones_witness :
    ((2 ^ 1 ≤ 2) ∧ (0 ≤ 1)) ∧
    (Iterative.compute 8 ⟨List.replicate (2 ^ 1) 1, none, 0⟩
        = .ok ⟨List.replicate (2 ^ 1) 1,
               some (((2 ^ 1 : ℕ) : ℂ) :: List.replicate (2 ^ 1 - 1) 0), 8⟩ ∧
      Recursive.compute 2 8 ⟨List.replicate (2 ^ 1) 1, none, 0⟩
        = some ⟨List.replicate (2 ^ 1) 1,
                some (((2 ^ 1 : ℕ) : ℂ) :: List.replicate (2 ^ 1 - 1) 0), 8⟩ ∧
      Parallel.compute (2 ^ 0) 8 ⟨List.replicate (2 ^ 1) 1, none, 0⟩
        = ⟨List.replicate (2 ^ 1) 1,
           some (((2 ^ 1 : ℕ) : ℂ) :: List.replicate (2 ^ 1 - 1) 0), 8⟩) :=
  ⟨⟨by norm_num, by norm_num⟩,
   c7_all_ones 1 0 2 8 0 none (by norm_num) (by norm_num)⟩

/-- C8: the log2(N)-bit reversal map stays below N = 2^log2N, is computed
identically by the iterative loop (j |= bit shifted) and the parallel rank-0
loop (j shifted, low bit appended), is injective and surjective on [0, N),
and the permutation loop writes every destination slot exactly once, so the
permuted buffer holds x[reverse(j)] at slot j whatever the buffer held. -/
theorem c8_bitrev_bijection (k : ℕ) :
    (∀ i, bitrevIter k i < 2 ^ k ∧ bitrevPar k i = bitrevIter k i) ∧
    (∀ i j, i < 2 ^ k → j < 2 ^ k → bitrevIter k i = bitrevIter k j → i = j) ∧
    (∀ j, j < 2 ^ k → ∃ i, i < 2 ^ k ∧ bitrevIter k i = j) ∧
    (∀ x buf : List ℂ, x.length = 2 ^ k → buf.length = 2 ^ k →
      ∀ j, j < 2 ^ k →
        (permFold (bitrevIter k) x buf).getD j 0 = x.getD (bitrevIter k j) 0) :=
  ⟨fun i => ⟨bitrevIter_lt k i, bitrevPar_eq_bitrevIter k i⟩,
   fun i j hi hj he => bitrevIter_injOn k i j hi hj he,
   fun j hj => ⟨bitrevIter k j, bitrevIter_lt k j, bitrevIter_invol k j hj⟩,
   fun x buf hx hbuf j hj => permFold_bitrev_getD k x buf hx hbuf j hj⟩

/-- C9: the incremental-recurrence branch and the direct-angle branch of the
parallel engine's butterfly_stage compute the same transformation on every
data vector, stage width and direction, so the heuristic switch at
local_n/len >= 32 never changes the result. -/
theorem c9_branches_agree (inverse : Bool) (local_n len : ℕ) (data : List ℂ) :
    butterflyPass (wlenOf inverse len) len local_n data
        = butterflyPassDirect inverse len local_n data ∧
    butterfly_stage inverse local_n len data
        = butterflyPassDirect inverse len local_n data := by
  refine ⟨butterflyPass_eq_direct inverse len local_n data, ?_⟩
  rw [butterfly_stage_eq_pass, butterflyPass_eq_direct]

/-- C10: every engine's compute and reverseCompute leave the input buffer
exactly as it was: whenever a call returns a state, that state's input is
the input it was called on. -/
theorem c10_input_preserved (tv fuel P : ℕ) (s : FourierState) :
    (∀ s1, Iterative.compute tv s = .ok s1 → s1.input = s.input) ∧
    (∀ s1, Iterative.reverseCompute tv s = .ok s1 → s1.input = s.input) ∧
    (∀ s1, Recursive.compute fuel tv s = some s1 → s1.input = s.input) ∧
    (∀ s1, Recursive.reverseCompute fuel tv s = some s1 → s1.input = s.input) ∧
    (Parallel.compute P tv s).input = s.input ∧
    (Parallel.reverseCompute P tv s).input = s.input := by
  refine ⟨?_, ?_, ?_, ?_, rfl, rfl⟩
  · intro s1 h
    simp only [Iterative.compute] at h
    by_cases h0 : s.input.length = 0
    · rw [if_pos h0] at h
      injection h with h2
      rw [← h2]
    · rw [if_neg h0] at h
      by_cases hb : s.input.length &&& (s.input.length - 1) ≠ 0
      · rw [if_pos hb] at h
        exact Except.noConfusion h
      · rw [if_neg hb] at h
        injection h with h2
        rw [← h2]
  · intro s1 h
    simp only [Iterative.reverseCompute] at h
    by_cases h0 : s.input.length = 0
    · rw [if_pos h0] at h
      injection h with h2
      rw [← h2]
    · rw [if_neg h0] at h
      by_cases hb : s.input.length &&& (s.input.length - 1) ≠ 0
      · rw [if_pos hb] at h
        exact Except.noConfusion h
      · rw [if_neg hb] at h
        injection h with h2
        rw [← h2]
  · intro s1 h
    simp only [Recursive.compute] at h
    cases hr : recursiveFuel false fuel s.input with
    | none =>
      rw [hr] at h
      exact Option.noConfusion h
    | some r =>
      rw [hr, Option.map_some'] at h
      injection h with h2
      rw [← h2]
  · intro s1 h
    simp only [Recursive.reverseCompute] at h
    cases hr : recursiveFuel true fuel s.input with
    | none =>
      rw [hr] at h
      exact Option.noConfusion h
    | some r =>
      rw [hr, Option.map_some'] at h
      injection h with h2
      rw [← h2]
